import Mathlib

/-!
Verification development for the stack_v2_dedup_preprocess repository.

The repository consists of small scripts that stream rows from a remote
dataset, optionally resolve blob content from an object store, normalize
timestamp fields, and write the rows to a JSON-lines log (and, in the
split-output variant, one code file per sample).

This file gives a shallow embedding of the code:
* `Value` models the scalar field values that occur in dataset rows
  (strings, ints, booleans, `None`, and native `datetime.datetime`
  objects).  Nested containers do not occur in the fields the scripts
  touch and are outside the model.
* `Row` models a Python dict as an association list (Python dicts keep
  insertion order; well-formed dicts have `Nodup` keys).
* `ingestLoop` embeds the per-row loop shared by `fetch_samples`
  (src/extract.py) and `fetch_python_samples` (src/python.py): the
  whole fallible prefix of the loop body (the progress print's key
  accesses and `download_contents`) is abstracted as the external
  resolver parameter `resolve : Row → Option String`, exactly the
  Content Resolver boundary; `json.dumps` is modelled faithfully as a
  partial serializer (it raises on `datetime` values, which the loop's
  `except` also catches, producing a skip).
* `extract_code_to_files` embeds the split-extraction step of
  src/extract.py, with `loads` a model of `json.loads` on the object
  shapes this pipeline produces.
* `fetch_for_language` embeds src/fetch_aise_stack_v2.py.
* `sessionInit` embeds the module-level credentials check of
  src/extract.py and src/python.py.
-/

/-- Model of a naive `datetime.datetime` value (year, month, day, hour,
minute, second, microsecond). -/
structure DateTime where
  year : Nat
  month : Nat
  day : Nat
  hour : Nat
  minute : Nat
  second : Nat
  usec : Nat
deriving DecidableEq, Repr

/-- Decimal digits of a natural number, most significant first
(the digits of Python `str(n)` / `repr(n)`). -/
def natDigits (n : Nat) : List Char :=
  if h : n < 10 then [Char.ofNat (48 + n)]
  else natDigits (n / 10) ++ [Char.ofNat (48 + n % 10)]
decreasing_by exact Nat.div_lt_self (by omega) (by omega)

/-- Zero-padded two-digit decimal (Python `%02d`). -/
def pad2 (n : Nat) : String :=
  if n < 10 then String.mk ('0' :: natDigits n) else String.mk (natDigits n)

/-- Zero-padded four-digit decimal (Python `%04d`). -/
def pad4 (n : Nat) : String :=
  if n < 10 then String.mk ('0' :: '0' :: '0' :: natDigits n)
  else if n < 100 then String.mk ('0' :: '0' :: natDigits n)
  else if n < 1000 then String.mk ('0' :: natDigits n)
  else String.mk (natDigits n)

/-- Zero-padded six-digit decimal (Python `%06d`). -/
def pad6 (n : Nat) : String :=
  if n < 10 then String.mk ('0' :: '0' :: '0' :: '0' :: '0' :: natDigits n)
  else if n < 100 then String.mk ('0' :: '0' :: '0' :: '0' :: natDigits n)
  else if n < 1000 then String.mk ('0' :: '0' :: '0' :: natDigits n)
  else if n < 10000 then String.mk ('0' :: '0' :: natDigits n)
  else if n < 100000 then String.mk ('0' :: natDigits n)
  else String.mk (natDigits n)

/-- `datetime.isoformat()`: `YYYY-MM-DDTHH:MM:SS[.ffffff]` for naive
date-times. -/
def DateTime.isoformat (d : DateTime) : String :=
  pad4 d.year ++ "-" ++ pad2 d.month ++ "-" ++ pad2 d.day ++ "T" ++
  pad2 d.hour ++ ":" ++ pad2 d.minute ++ ":" ++ pad2 d.second ++
  (if d.usec = 0 then "" else "." ++ pad6 d.usec)

/-- Scalar field values occurring in dataset rows. -/
inductive Value where
  | str (s : String)
  | int (i : Int)
  | bool (b : Bool)
  | null
  | datetime (d : DateTime)
deriving DecidableEq, Repr

/-- `isinstance(v, datetime.datetime)`. -/
def Value.isDatetime : Value → Bool
  | .datetime _ => true
  | _ => false

/-- Python truthiness of a scalar value (`bool(v)`). -/
def Value.truthy : Value → Bool
  | .str s => !s.isEmpty
  | .int i => i ≠ 0
  | .bool b => b
  | .null => false
  | .datetime _ => true

/-- Python `str(v)` for the scalar values of the model (used by f-string
formatting of `blob_id`). -/
def Value.pyStr : Value → String
  | .str s => s
  | .int i => if i < 0 then String.mk ('-' :: natDigits (-i).toNat) else String.mk (natDigits i.toNat)
  | .bool b => if b then "True" else "False"
  | .null => "None"
  | .datetime d => d.isoformat

/-- A Python dict, as an insertion-ordered association list. -/
abbrev Row := List (String × Value)

/-- `d.get(k)` / `k in d` + `d[k]`: first binding of `k` in the row. -/
def pyGet (r : Row) (k : String) : Option Value :=
  match r with
  | [] => none
  | (k', v) :: rest => if k' = k then some v else pyGet rest k

/-- `k in d`. -/
def hasKey (r : Row) (k : String) : Bool :=
  match r with
  | [] => false
  | (k', _) :: rest => k' = k || hasKey rest k

/-- `d[k] = v`: replace the value at an existing key in place, else
append the new binding at the end (Python dict insertion order). -/
def setKey (r : Row) (k : String) (v : Value) : Row :=
  if hasKey r k then r.map (fun p => if p.1 = k then (k, v) else p)
  else r ++ [(k, v)]

/-- The fixed timestamp key set of `fetch_samples` / `fetch_python_samples`. -/
def timestampKeys : List String :=
  ["visit_date", "revision_date", "committer_date", "gha_event_created_at", "gha_created_at"]

/-- One iteration of the timestamp-fix loop:
`if key in row and isinstance(row[key], datetime.datetime): row[key] = row[key].isoformat()`. -/
def coerceTs (k : String) (r : Row) : Row :=
  match pyGet r k with
  | some (.datetime d) => setKey r k (.str d.isoformat)
  | _ => r

/-- The whole timestamp-normalization loop (`for key in timestamp_keys: ...`). -/
def normalizeTimestamps (r : Row) : Row :=
  timestampKeys.foldl (fun acc k => coerceTs k acc) r

/-! ### json.dumps, modelled on the scalar values of the pipeline -/

/-- Lowercase hex digit (Python `"%x"`). -/
def hexDigitChar (n : Nat) : Char :=
  if n < 10 then Char.ofNat (48 + n) else Char.ofNat (87 + n)

/-- Four lowercase hex digits (Python `"%04x"`). -/
def hex4 (n : Nat) : List Char :=
  [hexDigitChar (n / 4096 % 16), hexDigitChar (n / 256 % 16),
   hexDigitChar (n / 16 % 16), hexDigitChar (n % 16)]

/-- A `\uXXXX` escape. -/
def uEscape (n : Nat) : List Char :=
  '\\' :: 'u' :: hex4 n

/-- `json.dumps` escaping of one character: the two-character escapes of
the escape table, `\uXXXX` for other control characters, and — with
`ensure_ascii` (the default used by src/extract.py and src/python.py) —
`\uXXXX` (with surrogate pairs beyond the BMP) for every non-ASCII
character.  `src/fetch_aise_stack_v2.py` passes `ensure_ascii=False`,
which leaves non-ASCII characters unescaped. -/
def escapeChar (ensureAscii : Bool) (c : Char) : List Char :=
  if c = '"' then ['\\', '"']
  else if c = '\\' then ['\\', '\\']
  else if c = '\x08' then ['\\', 'b']
  else if c = '\x0c' then ['\\', 'f']
  else if c = '\n' then ['\\', 'n']
  else if c = '\r' then ['\\', 'r']
  else if c = '\t' then ['\\', 't']
  else if c.toNat < 32 then uEscape c.toNat
  else if ensureAscii && 126 < c.toNat then
    if c.toNat ≤ 65535 then uEscape c.toNat
    else uEscape (55296 + (c.toNat - 65536) / 1024) ++ uEscape (56320 + (c.toNat - 65536) % 1024)
  else [c]

/-- Escape every character of a string body. -/
def escapeList (ensureAscii : Bool) : List Char → List Char
  | [] => []
  | c :: rest => escapeChar ensureAscii c ++ escapeList ensureAscii rest

/-- A JSON string literal: `"` + escaped body + `"`. -/
def encodeString (ensureAscii : Bool) (s : String) : List Char :=
  '"' :: (escapeList ensureAscii s.data ++ ['"'])

/-- Serialization of one scalar value.  `json.dumps` raises `TypeError`
on a `datetime.datetime` value, modelled as `none`. -/
def dumpValue (ensureAscii : Bool) : Value → Option (List Char)
  | .str s => some (encodeString ensureAscii s)
  | .int i => some (if i < 0 then '-' :: natDigits (-i).toNat else natDigits i.toNat)
  | .bool b => some (if b then ['t', 'r', 'u', 'e'] else ['f', 'a', 'l', 's', 'e'])
  | .null => some ['n', 'u', 'l', 'l']
  | .datetime _ => none

/-- The members of a JSON object, joined with the default separators
`", "` and `": "`. -/
def dumpMembers (ensureAscii : Bool) : Row → Option (List Char)
  | [] => some []
  | [(k, v)] =>
    (dumpValue ensureAscii v).map (fun vc => encodeString ensureAscii k ++ ':' :: ' ' :: vc)
  | (k, v) :: p :: rest =>
    match dumpValue ensureAscii v, dumpMembers ensureAscii (p :: rest) with
    | some vc, some mc =>
      some (encodeString ensureAscii k ++ ':' :: ' ' :: vc ++ ',' :: ' ' :: mc)
    | _, _ => none

/-- `json.dumps` of a dict (`none` models a raised `TypeError`). -/
def dumps (ensureAscii : Bool) (r : Row) : Option String :=
  (dumpMembers ensureAscii r).map (fun mc => String.mk ('\x7b' :: (mc ++ ['\x7d'])))

/-! ### The ingestion loop of fetch_samples / fetch_python_samples -/

/-- The final state of one run of the ingestion loop: the rows as
written (content attached, timestamps normalized), the exact strings
passed to `f_out.write` (one per record, each one JSON object followed
by a newline), and the final value of `saved_count`. -/
structure IngestResult where
  records : List Row
  log : List String
  savedCount : Int
deriving DecidableEq, Repr

/-- The whole content of the log file after the run: the file is opened
with mode `"w"` (created and truncated) and receives exactly the write
calls of the run. -/
def IngestResult.fileContent (r : IngestResult) : String :=
  String.join r.log

/-- The body of the `for row in ds` loop of `fetch_samples`
(src/extract.py, lines 79-116) and `fetch_python_samples`
(src/python.py, lines 47-87).

`resolve` is the Content Resolver boundary: it stands for the fallible
prefix of the `try` block (the progress print's key accesses and
`download_contents(row["blob_id"], row["src_encoding"])`); any
exception there is modelled as `none` and caught by the `except` arm,
which skips the row.  A `TypeError` from `json.dumps` is likewise
caught and skips the row.  `bound` is `num_samples_to_save`; the loop
breaks as soon as `saved_count >= num_samples_to_save`, checked at the
top of each iteration. -/
def ingestLoop (resolve : Row → Option String) (bound : Int) :
    List Row → Int → List Row → List String → IngestResult
  | [], saved, recs, logAcc => ⟨recs.reverse, logAcc.reverse, saved⟩
  | row :: rest, saved, recs, logAcc =>
    if bound ≤ saved then ⟨recs.reverse, logAcc.reverse, saved⟩
    else
      match resolve row with
      | none => ingestLoop resolve bound rest saved recs logAcc
      | some content =>
        let row' := normalizeTimestamps (setKey row "content" (.str content))
        match dumps true row' with
        | none => ingestLoop resolve bound rest saved recs logAcc
        | some s => ingestLoop resolve bound rest (saved + 1) (row' :: recs) ((s ++ "\n") :: logAcc)

/-- The per-row outcome of the loop body: `none` when the row is
skipped (resolution failed, or serialization raised), otherwise the
written record together with the written line. -/
def processRow (resolve : Row → Option String) (row : Row) : Option (Row × String) :=
  match resolve row with
  | none => none
  | some content =>
    let row' := normalizeTimestamps (setKey row "content" (.str content))
    match dumps true row' with
    | none => none
    | some s => some (row', s ++ "\n")

/-- `LANGUAGE_CONFIG` of src/extract.py. -/
def LANGUAGE_CONFIG : List (String × String) :=
  [("python", "Python"), ("javascript", "JavaScript"), ("typescript", "TypeScript"),
   ("java", "Java"), ("c", "C"), ("cpp", "C++"), ("csharp", "C-Sharp"),
   ("go", "Go"), ("ruby", "Ruby"), ("rust", "Rust"), ("scala", "Scala")]

/-- `EXTENSION_MAP` of src/extract.py. -/
def EXTENSION_MAP : List (String × String) :=
  [("python", ".py"), ("javascript", ".js"), ("typescript", ".ts"),
   ("java", ".java"), ("c", ".c"), ("cpp", ".cpp"), ("csharp", ".cs"),
   ("go", ".go"), ("ruby", ".rb"), ("rust", ".rs"), ("scala", ".scala")]

/-- `fetch_samples(language_key, output_file, num_samples_to_save)`
(src/extract.py): raises `ValueError` on an unsupported language,
otherwise opens the sink and runs the ingestion loop over the streamed
rows.  `output_file` only names the sink and does not influence the
result. -/
def fetch_samples (language_key : String) (output_file : String)
    (num_samples_to_save : Int) (resolve : Row → Option String)
    (rows : List Row) : Except String IngestResult :=
  if (LANGUAGE_CONFIG.lookup language_key).isSome then
    .ok (ingestLoop resolve num_samples_to_save rows 0 [] [])
  else
    .error ("unsupported language: " ++ language_key)

/-- `fetch_python_samples()` (src/python.py): the same loop with the
hard-coded bound `num_samples_to_save = 100`. -/
def fetch_python_samples (resolve : Row → Option String) (rows : List Row) : IngestResult :=
  ingestLoop resolve 100 rows 0 [] []

/-! ### Startup credentials check (module level of extract.py / python.py) -/

/-- The module-level `try: session = boto3.Session(os.environ[...], ...)
except KeyError: ...; exit(1)` block shared by src/extract.py and
src/python.py: a missing environment variable raises `KeyError`, which
is caught and turned into `exit(1)`. -/
def sessionInit (env : String → Option String) : Except Int Unit :=
  match env "AWS_ACCESS_KEY_ID", env "AWS_SECRET_ACCESS_KEY" with
  | some _, some _ => .ok ()
  | _, _ => .error 1

/-- Running src/extract.py as a script: the module-level session block
runs first (at import, before any argument or row is looked at); only
if it succeeds does `fetch_samples` run. -/
def extractScriptRun (env : String → Option String) (language_key output_file : String)
    (count : Int) (resolve : Row → Option String) (rows : List Row) :
    Except Int (Except String IngestResult) :=
  match sessionInit env with
  | .error c => .error c
  | .ok _ => .ok (fetch_samples language_key output_file count resolve rows)

/-- Running src/python.py as a script. -/
def pythonScriptRun (env : String → Option String) (resolve : Row → Option String)
    (rows : List Row) : Except Int IngestResult :=
  match sessionInit env with
  | .error c => .error c
  | .ok _ => .ok (fetch_python_samples resolve rows)

/-! ### Well-formedness of source rows -/

/-- A row as the dataset schema delivers it: any native date-time value
sits at one of the well-known timestamp keys. -/
def SchemaRow (r : Row) : Prop :=
  ∀ p ∈ r, p.2.isDatetime = true → p.1 ∈ timestampKeys

instance (r : Row) : Decidable (SchemaRow r) := by
  unfold SchemaRow; infer_instance

/-- A well-formed dataset row: distinct keys (it models a Python dict)
and date-times only at timestamp keys. -/
def RowOk (r : Row) : Prop :=
  (r.map Prod.fst).Nodup ∧ SchemaRow r

instance (r : Row) : Decidable (RowOk r) := by
  unfold RowOk; infer_instance

/-! ### json.loads, modelled on the object shapes this pipeline produces -/

/-- Value of a hex digit (`json.loads` accepts both cases). -/
def hexVal (c : Char) : Option Nat :=
  if '0' ≤ c ∧ c ≤ '9' then some (c.toNat - 48)
  else if 'a' ≤ c ∧ c ≤ 'f' then some (c.toNat - 87)
  else if 'A' ≤ c ∧ c ≤ 'F' then some (c.toNat - 55)
  else none

/-- Value of four hex digits. -/
def hex4Val (a b c d : Char) : Option Nat :=
  match hexVal a, hexVal b, hexVal c, hexVal d with
  | some x, some y, some z, some w => some (x * 4096 + y * 256 + z * 16 + w)
  | _, _, _, _ => none

/-- The two-character escapes accepted after a backslash
(the BACKSLASH table of the json module). -/
def simpleEsc (e : Char) : Option Char :=
  if e = '"' then some '"'
  else if e = '\\' then some '\\'
  else if e = '/' then some '/'
  else if e = 'b' then some '\x08'
  else if e = 'f' then some '\x0c'
  else if e = 'n' then some '\n'
  else if e = 'r' then some '\r'
  else if e = 't' then some '\t'
  else none

/-- Decode one character of a JSON string body (`strict=True`, the json
default): a plain character (unescaped control characters are
rejected), a two-character escape from the BACKSLASH table, or a
`\uXXXX` escape, where a high surrogate must be followed by a low
surrogate (lone surrogates cannot be represented in the model's
strings and never arise from `dumps`).  Returns the decoded character
and the remaining input; `none` on the closing quote or any error. -/
def unescapeStep : List Char → Option (Char × List Char)
  | [] => none
  | c :: rest =>
    if c = '"' then none
    else if c = '\\' then
      match rest with
      | [] => none
      | e :: rest2 =>
        if e = 'u' then
          match rest2 with
          | a :: b :: c2 :: d :: rest3 =>
            match hex4Val a b c2 d with
            | none => none
            | some n =>
              if 55296 ≤ n ∧ n ≤ 56319 then
                match rest3 with
                | '\\' :: 'u' :: a2 :: b2 :: c3 :: d2 :: rest4 =>
                  match hex4Val a2 b2 c3 d2 with
                  | some m =>
                    if 56320 ≤ m ∧ m ≤ 57343 then
                      some (Char.ofNat (65536 + (n - 55296) * 1024 + (m - 56320)), rest4)
                    else none
                  | none => none
                | _ => none
              else if 56320 ≤ n ∧ n ≤ 57343 then none
              else some (Char.ofNat n, rest3)
          | _ => none
        else
          match simpleEsc e with
          | some c2 => some (c2, rest2)
          | none => none
    else if c.toNat < 32 then none
    else some (c, rest)

/-- Scan a JSON string body up to its closing quote, decoding escapes
one at a time; `fuel` bounds the number of decoded characters. -/
def scanBodyGo : Nat → List Char → Option (List Char × List Char)
  | 0, _ => none
  | fuel + 1, cs =>
    match cs with
    | [] => none
    | c :: rest =>
      if c = '"' then some ([], rest)
      else
        match unescapeStep (c :: rest) with
        | some p => (scanBodyGo fuel p.2).map (fun q => (p.1 :: q.1, q.2))
        | none => none

/-- Scan a JSON string body up to its closing quote; each decoding step
consumes at least one input character, so `length + 1` fuel always
suffices. -/
def scanStringBody (cs : List Char) : Option (List Char × List Char) :=
  scanBodyGo (cs.length + 1) cs

/-- Greedily take decimal digits. -/
def takeDigits : List Char → List Char × List Char
  | [] => ([], [])
  | c :: rest =>
    if c.isDigit then
      let q := takeDigits rest
      (c :: q.1, q.2)
    else ([], c :: rest)

/-- Fold decimal digits onto an accumulator. -/
def digitsToNat (acc : Nat) : List Char → Nat
  | [] => acc
  | c :: rest => digitsToNat (acc * 10 + (c.toNat - 48)) rest

/-- Parse an unsigned integer literal.  A following `.`, `e` or `E`
would make Python parse a float, which is outside the scalar model. -/
def scanNat (cs : List Char) : Option (Nat × List Char) :=
  let q := takeDigits cs
  match q.1 with
  | [] => none
  | _ =>
    match q.2 with
    | [] => some (digitsToNat 0 q.1, [])
    | c :: _ =>
      if c = '.' ∨ c = 'e' ∨ c = 'E' then none
      else some (digitsToNat 0 q.1, q.2)

/-- Parse one scalar JSON value. -/
def scanScalar : List Char → Option (Value × List Char)
  | [] => none
  | c :: rest =>
    if c = '"' then (scanStringBody rest).map (fun q => (.str (String.mk q.1), q.2))
    else if c = 't' then
      match rest with
      | 'r' :: 'u' :: 'e' :: rest2 => some (.bool true, rest2)
      | _ => none
    else if c = 'f' then
      match rest with
      | 'a' :: 'l' :: 's' :: 'e' :: rest2 => some (.bool false, rest2)
      | _ => none
    else if c = 'n' then
      match rest with
      | 'u' :: 'l' :: 'l' :: rest2 => some (.null, rest2)
      | _ => none
    else if c = '-' then (scanNat rest).map (fun q => (.int (-(q.1 : Int)), q.2))
    else if c.isDigit then (scanNat (c :: rest)).map (fun q => (.int (q.1 : Int), q.2))
    else none

/-- Skip JSON whitespace. -/
def skipWs : List Char → List Char
  | [] => []
  | c :: rest =>
    if c = ' ' ∨ c = '\t' ∨ c = '\n' ∨ c = '\r' then skipWs rest
    else c :: rest

/-- Parse the members of a JSON object, positioned at the first key
(whitespace already skipped); consumes the closing brace.  `fuel`
bounds the number of members. -/
def scanMembers : Nat → List Char → Option (List (String × Value) × List Char)
  | 0, _ => none
  | fuel + 1, cs =>
    match cs with
    | '"' :: rest =>
      match scanStringBody rest with
      | none => none
      | some (k, rest2) =>
        match skipWs rest2 with
        | ':' :: rest3 =>
          match scanScalar (skipWs rest3) with
          | none => none
          | some (v, rest4) =>
            match skipWs rest4 with
            | ',' :: rest5 =>
              (scanMembers fuel (skipWs rest5)).map (fun q => ((String.mk k, v) :: q.1, q.2))
            | '\x7d' :: rest5 => some ([(String.mk k, v)], rest5)
            | _ => none
        | _ => none
    | _ => none

/-- Parse a JSON object; returns the member list in source order and
the remaining input. -/
def scanObj (fuel : Nat) (cs : List Char) : Option (List (String × Value) × List Char) :=
  match skipWs cs with
  | '\x7b' :: rest =>
    match skipWs rest with
    | '\x7d' :: rest2 => some ([], rest2)
    | rest2 => scanMembers fuel rest2
  | _ => none

/-- Build a dict from parsed members: a repeated key overwrites the
value at its first position (Python dict construction). -/
def buildRow (ms : List (String × Value)) : Row :=
  ms.foldl (fun acc p => setKey acc p.1 p.2) []

/-- `json.loads` on one log line: a JSON object with scalar member
values, possibly surrounded by whitespace.  Anything else is a decode
failure (`none`). -/
def loads (s : String) : Option Row :=
  match scanObj (s.data.length + 1) s.data with
  | some (ms, rest) =>
    match skipWs rest with
    | [] => some (buildRow ms)
    | _ => none
  | none => none

/-! ### extract_code_to_files (src/extract.py, lines 122-178) -/

/-- The final state of one run of the split-extraction step: the file
write events (filename, content) in order, and the final `count`. -/
structure ExtractResult where
  files : List (String × String)
  count : Nat
deriving DecidableEq, Repr

/-- The body of the `for line in f_in` loop: parse the line (a decode
failure skips it), read `content` and `blob_id` with `.get`, skip the
line unless both are truthy, then write `content` to
`<blob_id><file_ext>`.  `f_out.write(content)` raises `TypeError`
unless `content` is a string; that exception is caught by the generic
`except` arm and skips the line without counting it. -/
def extractLine (file_ext : String) (st : ExtractResult) (line : String) : ExtractResult :=
  match loads line with
  | none => st
  | some data =>
    let content := pyGet data "content"
    let blob_id := pyGet data "blob_id"
    match content, blob_id with
    | some cv, some bv =>
      if cv.truthy && bv.truthy then
        match cv with
        | .str s => ⟨st.files ++ [(bv.pyStr ++ file_ext, s)], st.count + 1⟩
        | _ => st
      else st
    | _, _ => st

/-- `extract_code_to_files(input_file, output_dir, language_key)`
(src/extract.py): raises `ValueError` on an unsupported language,
otherwise reads the log lines and writes one code file per usable
line.  `lines` are the lines of the input file, each including its
trailing newline, as Python file iteration yields them. -/
def extract_code_to_files (lines : List String) (language_key : String) :
    Except String ExtractResult :=
  match EXTENSION_MAP.lookup language_key with
  | some file_ext => .ok (lines.foldl (extractLine file_ext) ⟨[], 0⟩)
  | none => .error ("unsupported language: " ++ language_key)

/-! ### fetch_aise_stack_v2.py -/

/-- `LANG_TO_FOLDER` of src/fetch_aise_stack_v2.py. -/
def LANG_TO_FOLDER : List (String × String) :=
  [("python", "Python_Files"), ("javascript", "JavaScript_Files"),
   ("typescript", "TypeScript_Files"), ("java", "Java_Files"), ("c", "C_Files"),
   ("cpp", "CPP_Files"), ("csharp", "C-Sharp_Files"), ("go", "Go_Files"),
   ("ruby", "Ruby_Files"), ("rust", "Rust_Files"), ("scala", "Scala_Files")]

/-- `EXT_MAP` of src/fetch_aise_stack_v2.py. -/
def EXT_MAP : List (String × String) :=
  [("python", ".py"), ("javascript", ".js"), ("typescript", ".ts"),
   ("java", ".java"), ("c", ".c"), ("cpp", ".cpp"), ("csharp", ".cs"),
   ("go", ".go"), ("ruby", ".rb"), ("rust", ".rs"), ("scala", ".scala")]

/-- The candidate content keys of `choose_content`. -/
def contentKeys : List String :=
  ["content", "text", "code", "source", "document"]

/-- `choose_content(row)`: the first key whose value is a non-empty
string.  (The caller's fallback into a nested `row["data"]` dict never
fires in the scalar model, where no value is a dict.) -/
def choose_content (row : Row) : Option String :=
  contentKeys.findSome? (fun k =>
    match pyGet row k with
    | some (.str s) => if !s.isEmpty then some s else none
    | _ => none)

/-- Python `x or y` on scalar values: `x` if truthy, else `y`. -/
def pyOrV (a b : Value) : Value :=
  if a.truthy then a else b

/-- `row.get(k)`: `None` when the key is absent. -/
def rowGetD (row : Row) (k : String) : Value :=
  (pyGet row k).getD .null

/-- The stable file-name stem:
`str(row.get("blob_id") or row.get("sha") or row.get("hash") or
row.get("path") or row.get("id") or f"sample_{saved+1}")` with `/` and
space replaced by `_`. -/
def stemOf (row : Row) (saved : Int) : String :=
  ((pyOrV (rowGetD row "blob_id") (pyOrV (rowGetD row "sha") (pyOrV (rowGetD row "hash")
    (pyOrV (rowGetD row "path") (pyOrV (rowGetD row "id")
      (.str ("sample_" ++ (Value.int (saved + 1)).pyStr))))))).pyStr).replace "/" "_"
    |>.replace " " "_"

/-- The record serialized to the JSONL sink by `fetch_for_language`:
a fixed five-field projection, not the source row. -/
def aiseRecord (row : Row) (language stem content : String) : Row :=
  [("id", (pyGet row "id").getD (.str stem)),
   ("path", (pyGet row "path").getD .null),
   ("repo_name", pyOrV (rowGetD row "repo_name")
      (pyOrV (rowGetD row "repo") (rowGetD row "repository"))),
   ("language", .str language),
   ("content", .str content)]

/-- The final state of one run of `fetch_for_language`: code-file write
events, written records, log write events, and the final `saved`. -/
structure AiseResult where
  files : List (String × String)
  records : List Row
  log : List String
  saved : Int
deriving DecidableEq, Repr

/-- The `for row in ds` loop of `fetch_for_language`
(src/fetch_aise_stack_v2.py, lines 70-115).  `writeOk path content`
models whether `code_path.write_text(content, ...)` succeeds; a failed
write is caught by the surrounding `try` and skips the row.  The JSONL
write that follows is not inside any `try`: a `TypeError` from
`json.dumps(record, ensure_ascii=False)` would propagate and abort the
run, modelled as `.error`. -/
def aiseLoop (writeOk : String → String → Bool) (language ext : String) (count : Int) :
    List Row → Int → List (String × String) → List Row → List String →
    Except String AiseResult
  | [], saved, fs, recs, logAcc => .ok ⟨fs.reverse, recs.reverse, logAcc.reverse, saved⟩
  | row :: rest, saved, fs, recs, logAcc =>
    if count ≤ saved then .ok ⟨fs.reverse, recs.reverse, logAcc.reverse, saved⟩
    else
      match choose_content row with
      | none => aiseLoop writeOk language ext count rest saved fs recs logAcc
      | some content =>
        let stem := stemOf row saved
        let path := stem ++ ext
        if writeOk path content then
          let record := aiseRecord row language stem content
          match dumps false record with
          | none => .error "TypeError: Object is not JSON serializable"
          | some s =>
            aiseLoop writeOk language ext count rest (saved + 1)
              ((path, content) :: fs) (record :: recs) ((s ++ "\n") :: logAcc)
        else
          aiseLoop writeOk language ext count rest saved fs recs logAcc

/-- `fetch_for_language(language, count, jsonl_path, out_dir)`
(src/fetch_aise_stack_v2.py): raises `ValueError` on an unsupported
language, otherwise streams rows through the loop with the extension
`EXT_MAP.get(language, "")`. -/
def fetch_for_language (language : String) (count : Int)
    (writeOk : String → String → Bool) (rows : List Row) : Except String AiseResult :=
  if (LANG_TO_FOLDER.lookup language).isSome then
    aiseLoop writeOk language ((EXT_MAP.lookup language).getD "") count rows 0 [] [] []
  else
    .error ("Unsupported language: " ++ language)

/-- A string lies in the image of `datetime.isoformat`. -/
def IsIsoString (s : String) : Prop :=
  ∃ d : DateTime, d.isoformat = s

/-- The lookup result holds no native date-time. -/
def noDtO : Option Value → Bool
  | some (.datetime _) => false
  | _ => true

/-- Pointwise view of the timestamp-normalization pass on one value. -/
def normValueFor (ks : List String) (k : String) : Value → Value
  | .datetime d => if k ∈ ks then .str d.isoformat else .datetime d
  | v => v

/-- Pointwise view of the timestamp-normalization pass on one binding. -/
def normEntryFor (ks : List String) (p : String × Value) : String × Value :=
  (p.1, normValueFor ks p.1 p.2)

/-! ### Concrete instances used by witnesses and counterexamples -/

/-- Three tiny source rows. -/
def wRows : List Row :=
  [[("blob_id", Value.str "a")], [("blob_id", Value.str "b")], [("blob_id", Value.str "c")]]

/-- A resolver that fails exactly on the row whose `blob_id` is `"b"`. -/
def wResolve : Row → Option String :=
  fun r => if pyGet r "blob_id" = some (.str "b") then none else some "X"

/-- A row whose resolution always fails. -/
def wBad : Row := [("blob_id", Value.str "bad")]

/-- A resolver that fails exactly on `wBad`. -/
def wResolveSkip : Row → Option String :=
  fun r => if r = wBad then none else some "X"

/-- An environment with no variables set. -/
def wEnvNone : String → Option String := fun _ => none

/-- The record the loop writes for a successfully resolved row
(identity on rows whose resolution fails; only applied under a
success hypothesis). -/
def procOf (resolve : Row → Option String) (row : Row) : Row :=
  match resolve row with
  | some c => normalizeTimestamps (setKey row "content" (.str c))
  | none => row

/-- Five tiny source rows (the spec scenario for order preservation). -/
def wRows5 : List Row :=
  [[("blob_id", Value.str "r1")], [("blob_id", Value.str "r2")],
   [("blob_id", Value.str "r3")], [("blob_id", Value.str "r4")],
   [("blob_id", Value.str "r5")]]

/-- A resolver that fails exactly on the row whose `blob_id` is `"r2"`. -/
def wResolve5 : Row → Option String :=
  fun r => if pyGet r "blob_id" = some (.str "r2") then none else some "X"

/-- A resolver that succeeds on every row. -/
def wResolveAll : Row → Option String := fun _ => some "pay"

/-- A row carrying a non-ISO string in `visit_date`. -/
def wRowC3 : Row := [("blob_id", Value.str "b1"), ("visit_date", Value.str "x")]

/-- A concrete date-time. -/
def wDt : DateTime := ⟨2023, 5, 7, 1, 2, 3, 0⟩

/-- A row carrying a native date-time in `visit_date`. -/
def wRowDt : Row := [("blob_id", Value.str "b1"), ("visit_date", Value.datetime wDt)]

/-- A row for the split-output variant carrying inline content plus an
extra metadata field. -/
def wRowAise : Row := [("content", Value.str "x"), ("extra", Value.int 7)]

/-- A filesystem on which every write succeeds. -/
def wWriteAll : String → String → Bool := fun _ _ => true

/-- A filesystem on which writing the content `"BAD"` always fails. -/
def wWriteNoBad : String → String → Bool := fun _ c => !(c == "BAD")

/-- A row whose chosen content is `"BAD"`. -/
def wBadAise : Row := [("content", Value.str "BAD")]

/-- The file-write event the split-extraction step performs for one
successfully parsed log object: present exactly when both `content`
and `blob_id` are truthy and the content is a string (otherwise the
line is skipped), named `str(blob_id) + file_ext` and carrying the
content bytes. -/
def extractEvent (file_ext : String) (rec : Row) : Option (String × String) :=
  match pyGet rec "content", pyGet rec "blob_id" with
  | some cv, some bv =>
    if cv.truthy && bv.truthy then
      match cv with
      | .str s => some (bv.pyStr ++ file_ext, s)
      | _ => none
    else none
  | _, _ => none

/-! ## Basic lemmas about dict operations -/

theorem pyGet_cons_eq {k' k : String} (h : k' = k) (v : Value) (rest : Row) :
    pyGet ((k', v) :: rest) k = some v := by
  simp [pyGet, h]

theorem pyGet_cons_ne {k' k : String} (h : k' ≠ k) (v : Value) (rest : Row) :
    pyGet ((k', v) :: rest) k = pyGet rest k := by
  simp [pyGet, h]

theorem hasKey_eq (r : Row) (k : String) : hasKey r k = (pyGet r k).isSome := by
  induction r with
  | nil => rfl
  | cons p rest ih =>
    obtain ⟨k', v⟩ := p
    by_cases h : k' = k <;> simp [hasKey, pyGet, h, ih]

theorem pyGet_append_none {a : Row} {k : String} (h : pyGet a k = none) (b : Row) :
    pyGet (a ++ b) k = pyGet b k := by
  induction a with
  | nil => rfl
  | cons p rest ih =>
    obtain ⟨k', v⟩ := p
    by_cases hk : k' = k
    · rw [pyGet_cons_eq hk] at h
      exact absurd h (by simp)
    · rw [pyGet_cons_ne hk] at h
      rw [List.cons_append, pyGet_cons_ne hk]
      exact ih h

theorem pyGet_append_some {a : Row} {k : String} {v : Value}
    (h : pyGet a k = some v) (b : Row) : pyGet (a ++ b) k = some v := by
  induction a with
  | nil => simp [pyGet] at h
  | cons p rest ih =>
    obtain ⟨k', w⟩ := p
    by_cases hk : k' = k
    · rw [pyGet_cons_eq hk] at h
      rw [List.cons_append, pyGet_cons_eq hk]
      exact h
    · rw [pyGet_cons_ne hk] at h
      rw [List.cons_append, pyGet_cons_ne hk]
      exact ih h

theorem hasKey_false_not_mem {r : Row} {k : String} (h : hasKey r k = false) :
    ∀ p ∈ r, p.1 ≠ k := by
  induction r with
  | nil => intro p hp; simp at hp
  | cons q rest ih =>
    obtain ⟨k', v⟩ := q
    simp only [hasKey, Bool.or_eq_false_iff, decide_eq_false_iff_not] at h
    intro p hp
    rcases List.mem_cons.mp hp with h1 | h2
    · subst h1; exact h.1
    · exact ih h.2 p h2

theorem setKey_of_hasKey {r : Row} {k : String} (v : Value) (h : hasKey r k = true) :
    setKey r k v = r.map (fun p => if p.1 = k then (k, v) else p) := by
  simp [setKey, h]

theorem setKey_of_not_hasKey {r : Row} {k : String} (v : Value) (h : hasKey r k = false) :
    setKey r k v = r ++ [(k, v)] := by
  simp [setKey, h]

theorem mem_setKey {r : Row} {k : String} {v : Value} {p : String × Value}
    (h : p ∈ setKey r k v) : (p ∈ r ∧ p.1 ≠ k) ∨ p = (k, v) := by
  by_cases hk : hasKey r k = true
  · rw [setKey_of_hasKey v hk] at h
    rcases List.mem_map.mp h with ⟨q, hq, hqe⟩
    by_cases hq1 : q.1 = k
    · right
      rw [if_pos hq1] at hqe
      exact hqe.symm
    · left
      rw [if_neg hq1] at hqe
      subst hqe
      exact ⟨hq, hq1⟩
  · rw [setKey_of_not_hasKey v (by simpa using hk)] at h
    rcases List.mem_append.mp h with h1 | h2
    · left; exact ⟨h1, hasKey_false_not_mem (by simpa using hk) p h1⟩
    · right; simpa using h2

theorem keys_setKey_replace {r : Row} {k : String} (v : Value) (h : hasKey r k = true) :
    (setKey r k v).map Prod.fst = r.map Prod.fst := by
  rw [setKey_of_hasKey v h, List.map_map]
  apply List.map_congr_left
  intro p _
  by_cases hp : p.1 = k <;> simp [hp]

theorem keys_setKey_append {r : Row} {k : String} (v : Value) (h : hasKey r k = false) :
    (setKey r k v).map Prod.fst = r.map Prod.fst ++ [k] := by
  rw [setKey_of_not_hasKey v h]
  simp

theorem pyGet_replaceMap_ne (r : Row) {k k' : String} (hne : k' ≠ k) (v : Value) :
    pyGet (r.map (fun p => if p.1 = k then (k, v) else p)) k' = pyGet r k' := by
  induction r with
  | nil => rfl
  | cons p rest ih =>
    obtain ⟨k0, w⟩ := p
    by_cases h0 : k0 = k
    · have h1 : k0 ≠ k' := fun hh => hne (hh ▸ h0 ▸ rfl)
      rw [List.map_cons, if_pos (by simpa using h0)]
      rw [pyGet_cons_ne (fun hh => hne hh.symm), pyGet_cons_ne h1]
      exact ih
    · rw [List.map_cons, if_neg (by simpa using h0)]
      by_cases h1 : k0 = k'
      · rw [pyGet_cons_eq h1, pyGet_cons_eq h1]
      · rw [pyGet_cons_ne h1, pyGet_cons_ne h1]
        exact ih

theorem pyGet_setKey_ne (r : Row) {k k' : String} (hne : k' ≠ k) (v : Value) :
    pyGet (setKey r k v) k' = pyGet r k' := by
  by_cases hk : hasKey r k = true
  · rw [setKey_of_hasKey v hk]
    exact pyGet_replaceMap_ne r hne v
  · rw [setKey_of_not_hasKey v (by simpa using hk)]
    cases hg : pyGet r k' with
    | some w => exact pyGet_append_some hg _
    | none =>
      rw [pyGet_append_none hg, pyGet_cons_ne (fun hh => hne hh.symm)]
      rfl

theorem pyGet_setKey_self (r : Row) (k : String) (v : Value) :
    pyGet (setKey r k v) k = some v := by
  by_cases hk : hasKey r k = true
  · rw [setKey_of_hasKey v hk]
    rw [hasKey_eq] at hk
    induction r with
    | nil => simp [pyGet] at hk
    | cons p rest ih =>
      obtain ⟨k0, w⟩ := p
      by_cases h0 : k0 = k
      · rw [List.map_cons, if_pos (by simpa using h0)]
        exact pyGet_cons_eq rfl v _
      · rw [List.map_cons, if_neg (by simpa using h0)]
        rw [pyGet_cons_ne h0]
        rw [pyGet_cons_ne h0] at hk
        exact ih hk
  · rw [setKey_of_not_hasKey v (by simpa using hk)]
    rw [hasKey_eq] at hk
    rw [pyGet_append_none (by simpa using hk)]
    exact pyGet_cons_eq rfl v _

/-! ## Lemmas about timestamp normalization -/

theorem pyGet_mem_nodup {r : Row} (h : (r.map Prod.fst).Nodup) {p : String × Value}
    (hp : p ∈ r) : pyGet r p.1 = some p.2 := by
  induction r with
  | nil => simp at hp
  | cons q rest ih =>
    obtain ⟨k0, w⟩ := q
    rcases List.mem_cons.mp hp with h1 | h2
    · subst h1
      exact pyGet_cons_eq rfl _ _
    · have hne : k0 ≠ p.1 := by
        intro he
        have : p.1 ∈ rest.map Prod.fst := List.mem_map.mpr ⟨p, h2, rfl⟩
        rw [List.map_cons, List.nodup_cons] at h
        exact h.1 (he ▸ this)
      rw [pyGet_cons_ne hne]
      rw [List.map_cons, List.nodup_cons] at h
      exact ih h.2 h2

theorem coerceTs_keys (k : String) (r : Row) :
    (coerceTs k r).map Prod.fst = r.map Prod.fst := by
  simp only [coerceTs]
  cases hg : pyGet r k with
  | none => rfl
  | some v =>
    cases v with
    | datetime d => exact keys_setKey_replace _ (by rw [hasKey_eq, hg]; rfl)
    | str s => rfl
    | int i => rfl
    | bool b => rfl
    | null => rfl

theorem coerceTs_noop {k : String} {r : Row} (h : noDtO (pyGet r k) = true) :
    coerceTs k r = r := by
  simp only [coerceTs]
  cases hg : pyGet r k with
  | none => rfl
  | some v =>
    cases v with
    | datetime d => rw [hg] at h; simp [noDtO] at h
    | str s => rfl
    | int i => rfl
    | bool b => rfl
    | null => rfl

theorem noDtO_coerceTs_self (k : String) (r : Row) :
    noDtO (pyGet (coerceTs k r) k) = true := by
  simp only [coerceTs]
  cases hg : pyGet r k with
  | none => rw [hg]; rfl
  | some v =>
    cases v with
    | datetime d => rw [pyGet_setKey_self]; rfl
    | str s => rw [hg]; rfl
    | int i => rw [hg]; rfl
    | bool b => rw [hg]; rfl
    | null => rw [hg]; rfl

theorem noDtO_coerceTs_pres (k : String) {k' : String} {r : Row}
    (h : noDtO (pyGet r k') = true) : noDtO (pyGet (coerceTs k r) k') = true := by
  simp only [coerceTs]
  cases hg : pyGet r k with
  | none => exact h
  | some v =>
    cases v with
    | datetime d =>
      by_cases he : k' = k
      · subst he; rw [pyGet_setKey_self]; rfl
      · rw [pyGet_setKey_ne _ he]; exact h
    | str s => exact h
    | int i => exact h
    | bool b => exact h
    | null => exact h

theorem noDtO_fold_pres (ks : List String) :
    ∀ (r : Row) (k' : String), noDtO (pyGet r k') = true →
      noDtO (pyGet (ks.foldl (fun acc k => coerceTs k acc) r) k') = true := by
  induction ks with
  | nil => intro r k' h; exact h
  | cons k0 rest ih =>
    intro r k' h
    rw [List.foldl_cons]
    exact ih _ _ (noDtO_coerceTs_pres k0 h)

theorem noDtO_fold_estab (ks : List String) :
    ∀ (r : Row) (k : String), k ∈ ks →
      noDtO (pyGet (ks.foldl (fun acc k => coerceTs k acc) r) k) = true := by
  induction ks with
  | nil => intro r k h; simp at h
  | cons k0 rest ih =>
    intro r k h
    rw [List.foldl_cons]
    rcases List.mem_cons.mp h with h1 | h2
    · subst h1
      exact noDtO_fold_pres rest _ _ (noDtO_coerceTs_self k r)
    · exact ih _ _ h2

theorem fold_coerceTs_noop (ks : List String) :
    ∀ r : Row, (∀ k ∈ ks, noDtO (pyGet r k) = true) →
      ks.foldl (fun acc k => coerceTs k acc) r = r := by
  induction ks with
  | nil => intro r _; rfl
  | cons k0 rest ih =>
    intro r h
    rw [List.foldl_cons, coerceTs_noop (h k0 (by simp))]
    exact ih r (fun k hk => h k (List.mem_cons_of_mem _ hk))

theorem foldl_coerceTs_keys (ks : List String) :
    ∀ r : Row, ((ks.foldl (fun acc k => coerceTs k acc) r).map Prod.fst) = r.map Prod.fst := by
  induction ks with
  | nil => intro r; rfl
  | cons k0 rest ih =>
    intro r
    rw [List.foldl_cons, ih, coerceTs_keys]

theorem keys_normalizeTimestamps (r : Row) :
    (normalizeTimestamps r).map Prod.fst = r.map Prod.fst :=
  foldl_coerceTs_keys timestampKeys r

theorem pyGet_fold_not_mem {ks : List String} {k : String} (hk : k ∉ ks) :
    ∀ r : Row, pyGet (ks.foldl (fun acc k => coerceTs k acc) r) k = pyGet r k := by
  induction ks with
  | nil => intro r; rfl
  | cons k0 rest ih =>
    intro r
    have hk0 : k ≠ k0 := fun he => hk (he ▸ List.mem_cons_self k0 rest)
    have hrest : k ∉ rest := fun he => hk (List.mem_cons_of_mem _ he)
    rw [List.foldl_cons, ih hrest]
    simp only [coerceTs]
    cases hg : pyGet r k0 with
    | none => rfl
    | some v =>
      cases v with
      | datetime d => exact pyGet_setKey_ne _ hk0 _
      | str s => rfl
      | int i => rfl
      | bool b => rfl
      | null => rfl

theorem pyGet_normalizeTimestamps_not_ts {k : String} (hk : k ∉ timestampKeys) (r : Row) :
    pyGet (normalizeTimestamps r) k = pyGet r k :=
  pyGet_fold_not_mem hk r

theorem normEntryFor_nil (p : String × Value) : normEntryFor [] p = p := by
  obtain ⟨a, b⟩ := p
  cases b <;> simp [normEntryFor, normValueFor]

theorem map_normEntry_cons_nonDt {k0 : String} {r : Row} (rest : List String)
    (hnd : (r.map Prod.fst).Nodup) (h : noDtO (pyGet r k0) = true) :
    r.map (normEntryFor rest) = r.map (normEntryFor (k0 :: rest)) := by
  apply List.map_congr_left
  intro p hp
  by_cases hpk : p.1 = k0
  · have hv : pyGet r k0 = some p.2 := hpk ▸ pyGet_mem_nodup hnd hp
    rw [hv] at h
    obtain ⟨a, b⟩ := p
    cases b with
    | datetime d => simp [noDtO] at h
    | str s => rfl
    | int i => rfl
    | bool b => rfl
    | null => rfl
  · obtain ⟨a, b⟩ := p
    have ha : a ≠ k0 := hpk
    cases b with
    | datetime d => simp [normEntryFor, normValueFor, List.mem_cons, ha]
    | str s => rfl
    | int i => rfl
    | bool b => rfl
    | null => rfl

theorem foldl_coerceTs_eq (ks : List String) :
    ∀ r : Row, (r.map Prod.fst).Nodup →
      ks.foldl (fun acc k => coerceTs k acc) r = r.map (normEntryFor ks) := by
  induction ks with
  | nil =>
    intro r _
    rw [List.foldl_nil]
    conv_lhs => rw [← List.map_id r]
    exact List.map_congr_left (fun p _ => (normEntryFor_nil p).symm)
  | cons k0 rest ih =>
    intro r hnd
    rw [List.foldl_cons]
    have hnd' : ((coerceTs k0 r).map Prod.fst).Nodup := by
      rw [coerceTs_keys]; exact hnd
    rw [ih _ hnd']
    cases hg : pyGet r k0 with
    | none =>
      rw [coerceTs_noop (by rw [hg]; rfl)]
      exact map_normEntry_cons_nonDt rest hnd (by rw [hg]; rfl)
    | some v =>
      cases v with
      | str s =>
        rw [coerceTs_noop (by rw [hg]; rfl)]
        exact map_normEntry_cons_nonDt rest hnd (by rw [hg]; rfl)
      | int i =>
        rw [coerceTs_noop (by rw [hg]; rfl)]
        exact map_normEntry_cons_nonDt rest hnd (by rw [hg]; rfl)
      | bool b =>
        rw [coerceTs_noop (by rw [hg]; rfl)]
        exact map_normEntry_cons_nonDt rest hnd (by rw [hg]; rfl)
      | null =>
        rw [coerceTs_noop (by rw [hg]; rfl)]
        exact map_normEntry_cons_nonDt rest hnd (by rw [hg]; rfl)
      | datetime d =>
        rw [show coerceTs k0 r = setKey r k0 (Value.str d.isoformat) from by
          simp only [coerceTs, hg]]
        rw [setKey_of_hasKey _ (by rw [hasKey_eq, hg]; rfl), List.map_map]
        apply List.map_congr_left
        intro p hp
        by_cases hpk : p.1 = k0
        · have hv : some (Value.datetime d) = some p.2 := by
            rw [← hg, ← hpk]
            exact pyGet_mem_nodup hnd hp
          have hv2 : p.2 = Value.datetime d := (Option.some.injEq _ _ ▸ hv).symm
          obtain ⟨a, b⟩ := p
          simp only at hpk hv2
          subst hpk
          subst hv2
          simp [normEntryFor, normValueFor, List.mem_cons, Function.comp]
        · obtain ⟨a, b⟩ := p
          have ha : a ≠ k0 := hpk
          cases b with
          | datetime d2 => simp [normEntryFor, normValueFor, List.mem_cons, ha, Function.comp]
          | str s => simp [normEntryFor, normValueFor, ha, Function.comp]
          | int i => simp [normEntryFor, normValueFor, ha, Function.comp]
          | bool b2 => simp [normEntryFor, normValueFor, ha, Function.comp]
          | null => simp [normEntryFor, normValueFor, ha, Function.comp]

theorem normalizeTimestamps_eq_map {r : Row} (h : (r.map Prod.fst).Nodup) :
    normalizeTimestamps r = r.map (normEntryFor timestampKeys) :=
  foldl_coerceTs_eq timestampKeys r h

theorem pyGet_map_normEntryFor (ks : List String) (r : Row) (k : String) :
    pyGet (r.map (normEntryFor ks)) k = (pyGet r k).map (normValueFor ks k) := by
  induction r with
  | nil => rfl
  | cons p rest ih =>
    obtain ⟨k0, v⟩ := p
    by_cases h0 : k0 = k
    · subst h0
      rw [List.map_cons]
      rw [show normEntryFor ks (k0, v) = (k0, normValueFor ks k0 v) from rfl]
      rw [pyGet_cons_eq rfl, pyGet_cons_eq rfl]
      rfl
    · rw [List.map_cons]
      rw [show normEntryFor ks (k0, v) = (k0, normValueFor ks k0 v) from rfl]
      rw [pyGet_cons_ne h0, pyGet_cons_ne h0]
      exact ih

/-! ## Serialization succeeds without date-time values -/

theorem dumpValue_isSome (ea : Bool) {v : Value} (h : v.isDatetime = false) :
    (dumpValue ea v).isSome = true := by
  cases v <;> simp [dumpValue, Value.isDatetime] at h ⊢

theorem dumpMembers_isSome (ea : Bool) :
    ∀ {r : Row}, (∀ p ∈ r, p.2.isDatetime = false) → (dumpMembers ea r).isSome = true := by
  intro r
  induction r with
  | nil => intro _; simp [dumpMembers]
  | cons p rest ih =>
    obtain ⟨k, v⟩ := p
    intro h
    have hv : (dumpValue ea v).isSome = true :=
      dumpValue_isSome ea (h (k, v) (List.mem_cons_self _ _))
    cases rest with
    | nil =>
      simp only [dumpMembers]
      cases hd : dumpValue ea v with
      | none => rw [hd] at hv; simp at hv
      | some vc => simp
    | cons q rest2 =>
      have hm : (dumpMembers ea (q :: rest2)).isSome = true :=
        ih (fun p hp => h p (List.mem_cons_of_mem _ hp))
      simp only [dumpMembers]
      cases hd : dumpValue ea v with
      | none => rw [hd] at hv; simp at hv
      | some vc =>
        cases hd2 : dumpMembers ea (q :: rest2) with
        | none => rw [hd2] at hm; simp at hm
        | some mc => simp

theorem dumps_isSome (ea : Bool) {r : Row} (h : ∀ p ∈ r, p.2.isDatetime = false) :
    (dumps ea r).isSome = true := by
  have hm := dumpMembers_isSome ea h
  simp only [dumps]
  cases hd : dumpMembers ea r with
  | none => rw [hd] at hm; simp at hm
  | some mc => simp

theorem not_mem_keys_of_hasKey_false {r : Row} {k : String} (h : hasKey r k = false) :
    k ∉ r.map Prod.fst := by
  intro hmem
  rcases List.mem_map.mp hmem with ⟨p, hp, hpe⟩
  exact hasKey_false_not_mem h p hp hpe

theorem keys_setKey_nodup {row : Row} (h : (row.map Prod.fst).Nodup)
    (k : String) (v : Value) : ((setKey row k v).map Prod.fst).Nodup := by
  by_cases hk : hasKey row k = true
  · rw [keys_setKey_replace v hk]; exact h
  · rw [keys_setKey_append v (by simpa using hk)]
    rw [List.nodup_append]
    refine ⟨h, List.nodup_singleton k, ?_⟩
    intro a ha hb
    rcases List.mem_singleton.mp hb with rfl
    exact not_mem_keys_of_hasKey_false (by simpa using hk) ha

theorem processed_no_dt {row : Row} (hok : RowOk row) (c : String) :
    ∀ p ∈ normalizeTimestamps (setKey row "content" (.str c)), p.2.isDatetime = false := by
  intro p hp
  have hnd1 : ((setKey row "content" (.str c)).map Prod.fst).Nodup :=
    keys_setKey_nodup hok.1 _ _
  rw [normalizeTimestamps_eq_map hnd1] at hp
  rcases List.mem_map.mp hp with ⟨q, hq, rfl⟩
  rcases mem_setKey hq with ⟨hq_row, _⟩ | rfl
  · obtain ⟨a, b⟩ := q
    cases b with
    | datetime d =>
      have hts : a ∈ timestampKeys := hok.2 (a, Value.datetime d) hq_row rfl
      simp [normEntryFor, normValueFor, hts, Value.isDatetime]
    | str s => rfl
    | int i => rfl
    | bool b2 => rfl
    | null => rfl
  · rfl

theorem processRow_some {resolve : Row → Option String} {row : Row} {c : String}
    (hok : RowOk row) (hc : resolve row = some c) :
    ∃ s, dumps true (normalizeTimestamps (setKey row "content" (.str c))) = some s ∧
      processRow resolve row =
        some (normalizeTimestamps (setKey row "content" (.str c)), s ++ "\n") := by
  have hs := dumps_isSome true (processed_no_dt hok c)
  obtain ⟨s, hs'⟩ := Option.isSome_iff_exists.mp hs
  exact ⟨s, hs', by simp [processRow, hc, hs']⟩

theorem processRow_isSome {resolve : Row → Option String} {row : Row} (hok : RowOk row) :
    (processRow resolve row).isSome = (resolve row).isSome := by
  cases hc : resolve row with
  | none => simp [processRow, hc]
  | some c =>
    obtain ⟨s, _, hp⟩ := processRow_some hok hc
    simp [hp]

/-! ## Characterization of the ingestion loop -/

theorem ingestLoop_eq (resolve : Row → Option String) (bound : Int) :
    ∀ (rows : List Row) (saved : Int) (recs : List Row) (logAcc : List String),
      ingestLoop resolve bound rows saved recs logAcc =
        ⟨recs.reverse ++ ((rows.filterMap (processRow resolve)).take (bound - saved).toNat).map Prod.fst,
         logAcc.reverse ++ ((rows.filterMap (processRow resolve)).take (bound - saved).toNat).map Prod.snd,
         saved + ((rows.filterMap (processRow resolve)).take (bound - saved).toNat).length⟩ := by
  intro rows
  induction rows with
  | nil => intro saved recs logAcc; simp [ingestLoop]
  | cons row rest ih =>
    intro saved recs logAcc
    by_cases hb : bound ≤ saved
    · have h0 : (bound - saved).toNat = 0 := by omega
      rw [show ingestLoop resolve bound (row :: rest) saved recs logAcc =
            ⟨recs.reverse, logAcc.reverse, saved⟩ from by simp [ingestLoop, hb]]
      simp [h0]
    · have h1 : (bound - saved).toNat = (bound - (saved + 1)).toNat + 1 := by omega
      cases hr : resolve row with
      | none =>
        have hpr : processRow resolve row = none := by simp [processRow, hr]
        rw [show ingestLoop resolve bound (row :: rest) saved recs logAcc =
              ingestLoop resolve bound rest saved recs logAcc from by
            simp [ingestLoop, hb, hr]]
        rw [ih]
        simp [List.filterMap_cons, hpr]
      | some c =>
        cases hd : dumps true (normalizeTimestamps (setKey row "content" (.str c))) with
        | none =>
          have hpr : processRow resolve row = none := by simp [processRow, hr, hd]
          rw [show ingestLoop resolve bound (row :: rest) saved recs logAcc =
                ingestLoop resolve bound rest saved recs logAcc from by
              simp [ingestLoop, hb, hr, hd]]
          rw [ih]
          simp [List.filterMap_cons, hpr]
        | some s =>
          have hpr : processRow resolve row =
              some (normalizeTimestamps (setKey row "content" (.str c)), s ++ "\n") := by
            simp [processRow, hr, hd]
          rw [show ingestLoop resolve bound (row :: rest) saved recs logAcc =
                ingestLoop resolve bound rest (saved + 1)
                  (normalizeTimestamps (setKey row "content" (.str c)) :: recs)
                  ((s ++ "\n") :: logAcc) from by
              simp [ingestLoop, hb, hr, hd]]
          rw [ih]
          simp only [List.filterMap_cons, hpr, h1, List.take_succ_cons,
            IngestResult.mk.injEq, List.map_cons, List.length_cons, List.reverse_cons,
            List.append_assoc, List.cons_append, List.nil_append]
          exact ⟨trivial, trivial, by omega⟩

theorem length_filterMap_processRow {resolve : Row → Option String} :
    ∀ {rows : List Row}, (∀ r ∈ rows, RowOk r) →
      (rows.filterMap (processRow resolve)).length =
        rows.countP (fun r => (resolve r).isSome) := by
  intro rows
  induction rows with
  | nil => intro _; rfl
  | cons row rest ih =>
    intro h
    have hok : RowOk row := h row (List.mem_cons_self _ _)
    have hrest := ih (fun r hr => h r (List.mem_cons_of_mem _ hr))
    rw [List.filterMap_cons, List.countP_cons]
    cases hr : resolve row with
    | none =>
      have hpr : processRow resolve row = none := by simp [processRow, hr]
      simp [hpr, hrest, hr]
    | some c =>
      obtain ⟨s, _, hp⟩ := processRow_some hok hr
      simp [hp, hrest, hr]

/-! ## Claim theorems (first group) -/

/-- C1: for every run of the ingestion loop with bound `N` over a finite
row sequence of well-formed dataset rows, the number of records written
to the JSON-lines log equals `min N (number of rows that did not fail
resolution)`, and in particular never exceeds `N`. -/
theorem C1_log_count_min (resolve : Row → Option String) (N : Nat) (rows : List Row)
    (h : ∀ r ∈ rows, RowOk r) :
    (ingestLoop resolve (N : Int) rows 0 [] []).log.length
        = min N (rows.countP (fun r => (resolve r).isSome)) ∧
      (ingestLoop resolve (N : Int) rows 0 [] []).log.length ≤ N := by
  rw [ingestLoop_eq]
  have h0 : ((N : Int) - 0).toNat = N := by omega
  simp only [List.reverse_nil, List.nil_append, List.length_map, List.length_take, h0,
    length_filterMap_processRow h]
  exact ⟨trivial, Nat.min_le_left _ _⟩

/-- Witness for C1 at a concrete input: three rows, the middle one
failing resolution, bound 2. -/
theorem C1_log_count_min_witness :
    (∀ r ∈ wRows, RowOk r) ∧
      ((ingestLoop wResolve ((2 : Nat) : Int) wRows 0 [] []).log.length
          = min 2 (wRows.countP (fun r => (wResolve r).isSome)) ∧
        (ingestLoop wResolve ((2 : Nat) : Int) wRows 0 [] []).log.length ≤ 2) :=
  ⟨by decide, C1_log_count_min wResolve 2 wRows (by decide)⟩

/-- C2: a row whose resolution fails contributes nothing at all to the
run — the run over a source containing the bad row is identical, log
and counter included, to the run over the source with that row deleted,
and therefore the later split-extraction stage also produces identical
files.  In particular the failure is never propagated: both runs return
normally. -/
theorem C2_skip_isolation (resolve : Row → Option String) (bound : Int)
    (pre post : List Row) (bad : Row) (hbad : resolve bad = none) :
    ingestLoop resolve bound (pre ++ bad :: post) 0 [] []
        = ingestLoop resolve bound (pre ++ post) 0 [] [] ∧
      ∀ language_key,
        extract_code_to_files
            (ingestLoop resolve bound (pre ++ bad :: post) 0 [] []).log language_key
          = extract_code_to_files
            (ingestLoop resolve bound (pre ++ post) 0 [] []).log language_key := by
  have hpr : processRow resolve bad = none := by simp [processRow, hbad]
  have hmain : ingestLoop resolve bound (pre ++ bad :: post) 0 [] []
      = ingestLoop resolve bound (pre ++ post) 0 [] [] := by
    rw [ingestLoop_eq, ingestLoop_eq]
    simp [List.filterMap_append, List.filterMap_cons, hpr]
  exact ⟨hmain, fun lk => by rw [hmain]⟩

/-- Witness for C2 at a concrete input. -/
theorem C2_skip_isolation_witness :
    wResolveSkip wBad = none ∧
      (ingestLoop wResolveSkip 5 ([[("blob_id", Value.str "a")]] ++ wBad :: [[("blob_id", Value.str "c")]]) 0 [] []
          = ingestLoop wResolveSkip 5 ([[("blob_id", Value.str "a")]] ++ [[("blob_id", Value.str "c")]]) 0 [] [] ∧
        ∀ language_key,
          extract_code_to_files
              (ingestLoop wResolveSkip 5 ([[("blob_id", Value.str "a")]] ++ wBad :: [[("blob_id", Value.str "c")]]) 0 [] []).log language_key
            = extract_code_to_files
              (ingestLoop wResolveSkip 5 ([[("blob_id", Value.str "a")]] ++ [[("blob_id", Value.str "c")]]) 0 [] []).log language_key) :=
  ⟨by decide, C2_skip_isolation wResolveSkip 5 _ _ wBad (by decide)⟩

/-- C7: timestamp normalization is idempotent — applying the
normalization pass twice yields exactly the same row as applying it
once (values already converted to strings pass through unchanged). -/
theorem C7_normalization_idempotent (r : Row) :
    normalizeTimestamps (normalizeTimestamps r) = normalizeTimestamps r := by
  unfold normalizeTimestamps
  exact fold_coerceTs_noop timestampKeys _
    (fun k hk => noDtO_fold_estab timestampKeys r k hk)

/-- C8: for the variants that read the object store (src/extract.py and
src/python.py), a missing credential environment variable terminates
the process with exit code 1 at startup, before any row is processed,
and no other exit code is produced for this condition. -/
theorem C8_missing_credentials_exit_1 (env : String → Option String)
    (h : env "AWS_ACCESS_KEY_ID" = none ∨ env "AWS_SECRET_ACCESS_KEY" = none)
    (language_key output_file : String) (count : Int)
    (resolve : Row → Option String) (rows : List Row) :
    extractScriptRun env language_key output_file count resolve rows = .error 1 ∧
      pythonScriptRun env resolve rows = .error 1 := by
  have hs : sessionInit env = .error 1 := by
    rcases h with h | h
    · cases hc : env "AWS_SECRET_ACCESS_KEY" <;> simp [sessionInit, h, hc]
    · cases hc : env "AWS_ACCESS_KEY_ID" <;> simp [sessionInit, h, hc]
  exact ⟨by simp [extractScriptRun, hs], by simp [pythonScriptRun, hs]⟩

/-- Witness for C8 at a concrete input. -/
theorem C8_missing_credentials_exit_1_witness :
    (wEnvNone "AWS_ACCESS_KEY_ID" = none ∨ wEnvNone "AWS_SECRET_ACCESS_KEY" = none) ∧
      (extractScriptRun wEnvNone "python" "python_samples.jsonl" 1000 wResolve wRows = .error 1 ∧
        pythonScriptRun wEnvNone wResolve wRows = .error 1) :=
  ⟨Or.inl rfl,
    C8_missing_credentials_exit_1 wEnvNone (Or.inl rfl) "python" "python_samples.jsonl"
      1000 wResolve wRows⟩

/-- C10: with a non-positive bound `N ≤ 0` and a non-empty source, the
ingestion loop still terminates normally having written zero records —
the check `saved_count >= num_samples_to_save` fires on the very first
iteration — while the log sink has already been opened with mode `"w"`,
so the file exists with empty content. -/
theorem C10_nonpositive_bound (language_key output_file : String) (N : Int) (hN : N ≤ 0)
    (resolve : Row → Option String) (rows : List Row) (hrows : rows ≠ [])
    (hlang : (LANGUAGE_CONFIG.lookup language_key).isSome = true) :
    fetch_samples language_key output_file N resolve rows = .ok ⟨[], [], 0⟩ ∧
      IngestResult.fileContent ⟨[], [], 0⟩ = "" := by
  constructor
  · simp only [fetch_samples, hlang, if_true]
    have h0 : (N - 0).toNat = 0 := by omega
    rw [ingestLoop_eq, h0]
    simp
  · rfl

/-- Witness for C10 at a concrete input: bound `-3`, a one-row source. -/
theorem C10_nonpositive_bound_witness :
    ((-3 : Int) ≤ 0 ∧ ([[("blob_id", Value.str "a")]] : List Row) ≠ [] ∧
        (LANGUAGE_CONFIG.lookup "python").isSome = true) ∧
      (fetch_samples "python" "python_samples.jsonl" (-3) wResolve [[("blob_id", Value.str "a")]]
          = .ok ⟨[], [], 0⟩ ∧
        IngestResult.fileContent ⟨[], [], 0⟩ = "") :=
  ⟨⟨by decide, by decide, by decide⟩,
    C10_nonpositive_bound "python" "python_samples.jsonl" (-3) (by decide) wResolve
      [[("blob_id", Value.str "a")]] (by decide) (by decide)⟩

/-! ## Identifier preservation and order -/

theorem pyGet_procOf (resolve : Row → Option String) (row : Row) {k : String}
    (hk : k ∉ timestampKeys) (hc : k ≠ "content") :
    pyGet (procOf resolve row) k = pyGet row k := by
  unfold procOf
  cases hr : resolve row with
  | none => rfl
  | some c =>
    rw [pyGet_normalizeTimestamps_not_ts hk, pyGet_setKey_ne _ hc]

theorem map_fst_filterMap_processRow {resolve : Row → Option String} :
    ∀ {rows : List Row}, (∀ r ∈ rows, RowOk r) →
      (rows.filterMap (processRow resolve)).map Prod.fst
        = (rows.filter (fun r => (resolve r).isSome)).map (procOf resolve) := by
  intro rows
  induction rows with
  | nil => intro _; rfl
  | cons row rest ih =>
    intro h
    have hok : RowOk row := h row (List.mem_cons_self _ _)
    have hrest := ih (fun r hr => h r (List.mem_cons_of_mem _ hr))
    rw [List.filterMap_cons, List.filter_cons]
    cases hr : resolve row with
    | none =>
      have hpr : processRow resolve row = none := by simp [processRow, hr]
      simp [hpr, hrest, hr]
    | some c =>
      obtain ⟨s, _, hp⟩ := processRow_some hok hr
      have hproc : procOf resolve row = normalizeTimestamps (setKey row "content" (.str c)) := by
        simp [procOf, hr]
      simp [hp, hrest, hr, hproc]

/-- C4: the sequence of identifiers in the log is exactly the first `N`
identifiers of the non-skipped rows in source order — the subsequence
of the source's identifier sequence obtained by deleting the skipped
rows — and is in particular a sublist (order-preserving selection) of
the full identifier sequence yielded by the source. -/
theorem C4_order_preservation (resolve : Row → Option String) (N : Nat) (rows : List Row)
    (h : ∀ r ∈ rows, RowOk r) :
    (ingestLoop resolve (N : Int) rows 0 [] []).records.map (fun r => pyGet r "blob_id")
        = ((rows.filter (fun r => (resolve r).isSome)).take N).map (fun r => pyGet r "blob_id") ∧
      ((ingestLoop resolve (N : Int) rows 0 [] []).records.map (fun r => pyGet r "blob_id")).Sublist
        (rows.map (fun r => pyGet r "blob_id")) := by
  have h0 : ((N : Int) - 0).toNat = N := by omega
  have hrec : (ingestLoop resolve (N : Int) rows 0 [] []).records
      = ((rows.filter (fun r => (resolve r).isSome)).take N).map (procOf resolve) := by
    rw [ingestLoop_eq]
    simp only [List.reverse_nil, List.nil_append, h0]
    rw [List.map_take, map_fst_filterMap_processRow h, ← List.map_take]
  have hids : (ingestLoop resolve (N : Int) rows 0 [] []).records.map (fun r => pyGet r "blob_id")
      = ((rows.filter (fun r => (resolve r).isSome)).take N).map (fun r => pyGet r "blob_id") := by
    rw [hrec, List.map_map]
    apply List.map_congr_left
    intro r _
    exact pyGet_procOf resolve r (by decide) (by decide)
  refine ⟨hids, ?_⟩
  rw [hids]
  have hsub : ((rows.filter (fun r => (resolve r).isSome)).take N).Sublist rows :=
    (List.take_sublist N _).trans (List.filter_sublist rows)
  exact hsub.map _

/-- Witness for C4: the spec's scenario — bound 3, five rows, row 2's
resolution fails; the log's identifiers are rows 1, 3, 4 in order. -/
theorem C4_order_preservation_witness :
    (∀ r ∈ wRows5, RowOk r) ∧
      (ingestLoop wResolve5 ((3 : Nat) : Int) wRows5 0 [] []).records.map
          (fun r => pyGet r "blob_id")
        = [some (.str "r1"), some (.str "r3"), some (.str "r4")] := by
  have h : ∀ r ∈ wRows5, RowOk r := by decide
  have hc := C4_order_preservation wResolve5 3 wRows5 h
  exact ⟨h, hc.1.trans (by decide)⟩

/-! ## Shape of isoformat output -/

theorem length_mk (cs : List Char) : (String.mk cs).length = cs.length := rfl

theorem natDigits_length_pos (n : Nat) : 1 ≤ (natDigits n).length := by
  rw [natDigits]
  split
  · simp
  · simp

theorem natDigits_length_step {n : Nat} (h : 10 ≤ n) :
    (natDigits n).length = (natDigits (n / 10)).length + 1 := by
  rw [natDigits, dif_neg (by omega)]
  simp

theorem natDigits_length_ge2 {n : Nat} (h : 10 ≤ n) : 2 ≤ (natDigits n).length := by
  rw [natDigits_length_step h]
  have := natDigits_length_pos (n / 10)
  omega

theorem natDigits_length_ge3 {n : Nat} (h : 100 ≤ n) : 3 ≤ (natDigits n).length := by
  rw [natDigits_length_step (by omega)]
  have := natDigits_length_ge2 (n := n / 10) (by omega)
  omega

theorem natDigits_length_ge4 {n : Nat} (h : 1000 ≤ n) : 4 ≤ (natDigits n).length := by
  rw [natDigits_length_step (by omega)]
  have := natDigits_length_ge3 (n := n / 10) (by omega)
  omega

theorem pad2_length (n : Nat) : 2 ≤ (pad2 n).length := by
  unfold pad2
  split
  · rw [length_mk]
    have := natDigits_length_pos n
    simp
    omega
  · rw [length_mk]
    exact natDigits_length_ge2 (by omega)

theorem pad4_length (n : Nat) : 4 ≤ (pad4 n).length := by
  unfold pad4
  split
  · rw [length_mk]
    have := natDigits_length_pos n
    simp
    omega
  · split
    · rw [length_mk]
      have := natDigits_length_ge2 (n := n) (by omega)
      simp
      omega
    · split
      · rw [length_mk]
        have := natDigits_length_ge3 (n := n) (by omega)
        simp
        omega
      · rw [length_mk]
        exact natDigits_length_ge4 (by omega)

theorem isoformat_length (d : DateTime) : 19 ≤ d.isoformat.length := by
  unfold DateTime.isoformat
  have h4 := pad4_length d.year
  have h2a := pad2_length d.month
  have h2b := pad2_length d.day
  have h2c := pad2_length d.hour
  have h2d := pad2_length d.minute
  have h2e := pad2_length d.second
  have hd1 : ("-" : String).length = 1 := rfl
  have hd2 : ("T" : String).length = 1 := rfl
  have hd3 : (":" : String).length = 1 := rfl
  have hd4 : ("" : String).length = 0 := rfl
  have hd5 : ("." : String).length = 1 := rfl
  simp only [String.length_append]
  split <;> (try simp only [String.length_append]) <;> omega

/-! ## C3: timestamp fields of written records -/

/-- C3 counterexample: a source row whose `visit_date` already holds the
plain string `"x"` passes through unchanged, so the written record's
`visit_date` is `"x"`, which is not an ISO-8601 `isoformat` string —
refuting the claim that every present timestamp field of a written
record holds an ISO-8601 string. -/
theorem C3_counterexample :
    pyGet ((ingestLoop wResolveAll 1 [wRowC3] 0 [] []).records.headI) "visit_date"
        = some (.str "x") ∧ ¬ IsIsoString "x" := by
  refine ⟨by decide, ?_⟩
  rintro ⟨d, hd⟩
  have h19 := isoformat_length d
  rw [hd] at h19
  have : ("x" : String).length = 1 := rfl
  omega

/-- C3 (amended): for every record written to the log, a timestamp key
that is present never holds a native date-time value; the record comes
from a source row whose resolution succeeded, and each timestamp field
equals the source value with a native date-time replaced by its
ISO-8601 `isoformat` string and any other value passed through
unchanged. -/
theorem C3_timestamp_fields (resolve : Row → Option String) (N : Int) (rows : List Row)
    (h : ∀ r ∈ rows, RowOk r) :
    ∀ rec ∈ (ingestLoop resolve N rows 0 [] []).records,
      (∀ k ∈ timestampKeys, ∀ v, pyGet rec k = some v → v.isDatetime = false) ∧
      ∃ row ∈ rows, ∃ c, resolve row = some c ∧
        ∀ k ∈ timestampKeys,
          pyGet rec k = (pyGet row k).map (normValueFor timestampKeys k) := by
  intro rec hrec
  have hrec2 : rec ∈ ((rows.filterMap (processRow resolve)).take (N - 0).toNat).map Prod.fst := by
    rw [ingestLoop_eq] at hrec
    simpa using hrec
  rcases List.mem_map.mp hrec2 with ⟨pr, hpr_mem, hfst⟩
  have hpr_mem' : pr ∈ rows.filterMap (processRow resolve) := List.mem_of_mem_take hpr_mem
  rcases List.mem_filterMap.mp hpr_mem' with ⟨row, hrow_mem, hproc⟩
  have hok := h row hrow_mem
  obtain ⟨c, hc, hrec_eq⟩ : ∃ c, resolve row = some c ∧
      rec = normalizeTimestamps (setKey row "content" (.str c)) := by
    cases hr : resolve row with
    | none =>
      rw [show processRow resolve row = none from by simp [processRow, hr]] at hproc
      exact absurd hproc (by simp)
    | some c =>
      obtain ⟨s, _, hp⟩ := processRow_some hok hr
      rw [hp] at hproc
      refine ⟨c, rfl, ?_⟩
      have := Option.some.injEq _ _ ▸ hproc
      rw [← hfst, ← this]
  constructor
  · intro k hk v hv
    have hest := noDtO_fold_estab timestampKeys (setKey row "content" (.str c)) k hk
    have hv2 : pyGet (timestampKeys.foldl (fun acc k => coerceTs k acc)
        (setKey row "content" (.str c))) k = some v := by
      rw [← show normalizeTimestamps (setKey row "content" (.str c))
            = timestampKeys.foldl (fun acc k => coerceTs k acc)
              (setKey row "content" (.str c)) from rfl, ← hrec_eq]
      exact hv
    rw [hv2] at hest
    cases v with
    | datetime d => simp [noDtO] at hest
    | str s => rfl
    | int i => rfl
    | bool b => rfl
    | null => rfl
  · refine ⟨row, hrow_mem, c, hc, ?_⟩
    intro k hk
    have hkc : k ≠ "content" := by
      intro he
      rw [he] at hk
      exact absurd hk (by decide)
    have hnd1 : ((setKey row "content" (.str c)).map Prod.fst).Nodup :=
      keys_setKey_nodup hok.1 _ _
    rw [hrec_eq, normalizeTimestamps_eq_map hnd1, pyGet_map_normEntryFor,
      pyGet_setKey_ne _ hkc]

/-- Witness for the amended C3 at a concrete input: a row carrying a
native date-time in `visit_date`. -/
theorem C3_timestamp_fields_witness :
    (∀ r ∈ [wRowDt], RowOk r) ∧
      ∀ rec ∈ (ingestLoop wResolveAll 1 [wRowDt] 0 [] []).records,
        (∀ k ∈ timestampKeys, ∀ v, pyGet rec k = some v → v.isDatetime = false) ∧
        ∃ row ∈ [wRowDt], ∃ c, wResolveAll row = some c ∧
          ∀ k ∈ timestampKeys,
            pyGet rec k = (pyGet row k).map (normValueFor timestampKeys k) :=
  ⟨by decide, C3_timestamp_fields wResolveAll 1 [wRowDt] (by decide)⟩

/-! ## The split-output loop (fetch_for_language) -/

theorem aiseRecord_content (row : Row) (language stem content : String) :
    pyGet (aiseRecord row language stem content) "content" = some (.str content) := by
  unfold aiseRecord
  rw [pyGet_cons_ne (by decide), pyGet_cons_ne (by decide), pyGet_cons_ne (by decide),
    pyGet_cons_ne (by decide), pyGet_cons_eq rfl]

theorem aiseLoop_done {writeOk : String → String → Bool} {language ext : String}
    {count saved : Int} (h : count ≤ saved) :
    ∀ (rows : List Row) (fs : List (String × String)) (recs : List Row)
      (logAcc : List String),
      aiseLoop writeOk language ext count rows saved fs recs logAcc
        = .ok ⟨fs.reverse, recs.reverse, logAcc.reverse, saved⟩ := by
  intro rows fs recs logAcc
  cases rows with
  | nil => rfl
  | cons row rest => simp [aiseLoop, h]

theorem aiseLoop_forall₂ (writeOk : String → String → Bool) (language ext : String)
    (count : Int) :
    ∀ (rows : List Row) (saved : Int) (fs : List (String × String)) (recs : List Row)
      (logAcc : List String) (res : AiseResult),
      aiseLoop writeOk language ext count rows saved fs recs logAcc = .ok res →
      List.Forall₂ (fun f rec => pyGet rec "content" = some (.str f.2)) fs recs →
      List.Forall₂ (fun f rec => pyGet rec "content" = some (.str f.2))
        res.files res.records := by
  intro rows
  induction rows with
  | nil =>
    intro saved fs recs logAcc res hres hinv
    rw [show aiseLoop writeOk language ext count [] saved fs recs logAcc
        = .ok ⟨fs.reverse, recs.reverse, logAcc.reverse, saved⟩ from rfl] at hres
    rcases hres with rfl | _
    · exact List.forall₂_reverse_iff.mpr hinv
  | cons row rest ih =>
    intro saved fs recs logAcc res hres hinv
    by_cases hb : count ≤ saved
    · rw [aiseLoop_done hb] at hres
      rcases hres with rfl | _
      · exact List.forall₂_reverse_iff.mpr hinv
    · cases hc : choose_content row with
      | none =>
        rw [show aiseLoop writeOk language ext count (row :: rest) saved fs recs logAcc
            = aiseLoop writeOk language ext count rest saved fs recs logAcc from by
          simp [aiseLoop, hb, hc]] at hres
        exact ih saved fs recs logAcc res hres hinv
      | some content =>
        by_cases hw : writeOk (stemOf row saved ++ ext) content = true
        · cases hd : dumps false (aiseRecord row language (stemOf row saved) content) with
          | none =>
            rw [show aiseLoop writeOk language ext count (row :: rest) saved fs recs logAcc
                = .error "TypeError: Object is not JSON serializable" from by
              simp [aiseLoop, hb, hc, hw, hd]] at hres
            exact absurd hres (by simp)
          | some s =>
            rw [show aiseLoop writeOk language ext count (row :: rest) saved fs recs logAcc
                = aiseLoop writeOk language ext count rest (saved + 1)
                    ((stemOf row saved ++ ext, content) :: fs)
                    (aiseRecord row language (stemOf row saved) content :: recs)
                    ((s ++ "\n") :: logAcc) from by
              simp [aiseLoop, hb, hc, hw, hd]] at hres
            exact ih _ _ _ _ res hres
              (List.Forall₂.cons (aiseRecord_content row language _ content) hinv)
        · rw [show aiseLoop writeOk language ext count (row :: rest) saved fs recs logAcc
              = aiseLoop writeOk language ext count rest saved fs recs logAcc from by
            simp [aiseLoop, hb, hc, hw]] at hres
          exact ih saved fs recs logAcc res hres hinv

theorem aiseLoop_skip {writeOk : String → String → Bool} {language ext : String}
    {count : Int} {bad : Row} {cBad : String}
    (hchoose : choose_content bad = some cBad)
    (hfail : ∀ path, writeOk path cBad = false) :
    ∀ (pre post : List Row) (saved : Int) (fs : List (String × String))
      (recs : List Row) (logAcc : List String),
      aiseLoop writeOk language ext count (pre ++ bad :: post) saved fs recs logAcc
        = aiseLoop writeOk language ext count (pre ++ post) saved fs recs logAcc := by
  intro pre
  induction pre with
  | nil =>
    intro post saved fs recs logAcc
    simp only [List.nil_append]
    by_cases hb : count ≤ saved
    · rw [aiseLoop_done hb]
      cases post with
      | nil => rfl
      | cons q qs => rw [aiseLoop_done hb]
    · simp [aiseLoop, hb, hchoose, hfail]
  | cons p pre2 ih =>
    intro post saved fs recs logAcc
    simp only [List.cons_append]
    by_cases hb : count ≤ saved
    · rw [aiseLoop_done hb, aiseLoop_done hb]
    · cases hc : choose_content p with
      | none => simp only [aiseLoop, hb, hc, if_neg hb]; exact ih post saved fs recs logAcc
      | some content =>
        by_cases hw : writeOk (stemOf p saved ++ ext) content = true
        · cases hd : dumps false (aiseRecord p language (stemOf p saved) content) with
          | none => simp [aiseLoop, hb, hc, hw, hd]
          | some s =>
            simp only [aiseLoop, if_neg hb, hc, hw, hd]
            exact ih post (saved + 1) _ _ _
        · simp only [aiseLoop, if_neg hb, hc]
          rw [if_neg (by simpa using hw), if_neg (by simpa using hw)]
          exact ih post saved fs recs logAcc

/-- C9: in the split-output variant, the JSONL line for a row is
written only after that row's code file has been written: every
successful run pairs its log records one-to-one and in order with its
code-file write events (the k-th record's `content` field is exactly
the k-th file's content), and a row whose code-file write raises is
skipped entirely — the run over a source containing it is identical to
the run over the source with that row deleted. -/
theorem C9_file_write_precedes_log (language : String) (count : Int)
    (writeOk : String → String → Bool) (pre post : List Row) (bad : Row) (cBad : String)
    (hchoose : choose_content bad = some cBad)
    (hfail : ∀ path, writeOk path cBad = false) :
    (∀ (rows : List Row) (res : AiseResult),
        fetch_for_language language count writeOk rows = .ok res →
          List.Forall₂ (fun f rec => pyGet rec "content" = some (.str f.2))
            res.files res.records ∧
          res.files.length = res.records.length) ∧
      fetch_for_language language count writeOk (pre ++ bad :: post)
        = fetch_for_language language count writeOk (pre ++ post) := by
  constructor
  · intro rows res hres
    unfold fetch_for_language at hres
    by_cases hl : (LANG_TO_FOLDER.lookup language).isSome = true
    · rw [if_pos hl] at hres
      have h2 := aiseLoop_forall₂ writeOk language ((EXT_MAP.lookup language).getD "")
        count rows 0 [] [] [] res hres List.Forall₂.nil
      exact ⟨h2, h2.length_eq⟩
    · rw [if_neg (by simpa using hl)] at hres
      exact absurd hres (by simp)
  · unfold fetch_for_language
    by_cases hl : (LANG_TO_FOLDER.lookup language).isSome = true
    · rw [if_pos hl, if_pos hl]
      exact aiseLoop_skip hchoose hfail pre post 0 [] [] []
    · rw [if_neg (by simpa using hl), if_neg (by simpa using hl)]

/-- Witness for C9 at a concrete input: a middle row whose file write
always fails. -/
theorem C9_file_write_precedes_log_witness :
    (choose_content wBadAise = some "BAD" ∧ ∀ path, wWriteNoBad path "BAD" = false) ∧
      ((∀ (rows : List Row) (res : AiseResult),
          fetch_for_language "python" 3 wWriteNoBad rows = .ok res →
            List.Forall₂ (fun f rec => pyGet rec "content" = some (.str f.2))
              res.files res.records ∧
            res.files.length = res.records.length) ∧
        fetch_for_language "python" 3 wWriteNoBad
            ([[("content", Value.str "ok1")]] ++ wBadAise :: [[("content", Value.str "ok2")]])
          = fetch_for_language "python" 3 wWriteNoBad
            ([[("content", Value.str "ok1")]] ++ [[("content", Value.str "ok2")]])) :=
  ⟨⟨by decide, fun _ => rfl⟩,
    C9_file_write_precedes_log "python" 3 wWriteNoBad _ _ wBadAise "BAD" (by decide)
      (fun _ => rfl)⟩

/-! ## Shape of written log lines -/

theorem processRow_shape {resolve : Row → Option String} {row : Row} {pr : Row × String}
    (h : processRow resolve row = some pr) :
    ∃ c s, resolve row = some c ∧
      pr.1 = normalizeTimestamps (setKey row "content" (.str c)) ∧
      dumps true pr.1 = some s ∧ pr.2 = s ++ "\n" := by
  cases hr : resolve row with
  | none => simp [processRow, hr] at h
  | some c =>
    cases hd : dumps true (normalizeTimestamps (setKey row "content" (.str c))) with
    | none => simp [processRow, hr, hd] at h
    | some s =>
      simp only [processRow, hr, hd, Option.some.injEq] at h
      subst h
      exact ⟨c, s, rfl, rfl, hd, rfl⟩

theorem aiseLoop_keys (writeOk : String → String → Bool) (language ext : String)
    (count : Int) :
    ∀ (rows : List Row) (saved : Int) (fs : List (String × String)) (recs : List Row)
      (logAcc : List String) (res : AiseResult),
      aiseLoop writeOk language ext count rows saved fs recs logAcc = .ok res →
      (∀ rec ∈ recs, rec.map Prod.fst = ["id", "path", "repo_name", "language", "content"]) →
      ∀ rec ∈ res.records,
        rec.map Prod.fst = ["id", "path", "repo_name", "language", "content"] := by
  intro rows
  induction rows with
  | nil =>
    intro saved fs recs logAcc res hres hinv
    rw [show aiseLoop writeOk language ext count [] saved fs recs logAcc
        = .ok ⟨fs.reverse, recs.reverse, logAcc.reverse, saved⟩ from rfl] at hres
    rcases hres with rfl | _
    · intro rec hrec
      exact hinv rec (List.mem_reverse.mp hrec)
  | cons row rest ih =>
    intro saved fs recs logAcc res hres hinv
    by_cases hb : count ≤ saved
    · rw [aiseLoop_done hb] at hres
      rcases hres with rfl | _
      · intro rec hrec
        exact hinv rec (List.mem_reverse.mp hrec)
    · cases hc : choose_content row with
      | none =>
        rw [show aiseLoop writeOk language ext count (row :: rest) saved fs recs logAcc
            = aiseLoop writeOk language ext count rest saved fs recs logAcc from by
          simp [aiseLoop, hb, hc]] at hres
        exact ih saved fs recs logAcc res hres hinv
      | some content =>
        by_cases hw : writeOk (stemOf row saved ++ ext) content = true
        · cases hd : dumps false (aiseRecord row language (stemOf row saved) content) with
          | none =>
            rw [show aiseLoop writeOk language ext count (row :: rest) saved fs recs logAcc
                = .error "TypeError: Object is not JSON serializable" from by
              simp [aiseLoop, hb, hc, hw, hd]] at hres
            exact absurd hres (by simp)
          | some s =>
            rw [show aiseLoop writeOk language ext count (row :: rest) saved fs recs logAcc
                = aiseLoop writeOk language ext count rest (saved + 1)
                    ((stemOf row saved ++ ext, content) :: fs)
                    (aiseRecord row language (stemOf row saved) content :: recs)
                    ((s ++ "\n") :: logAcc) from by
              simp [aiseLoop, hb, hc, hw, hd]] at hres
            refine ih _ _ _ _ res hres ?_
            intro rec hrec
            rcases List.mem_cons.mp hrec with rfl | hmem
            · rfl
            · exact hinv rec hmem
        · rw [show aiseLoop writeOk language ext count (row :: rest) saved fs recs logAcc
              = aiseLoop writeOk language ext count rest saved fs recs logAcc from by
            simp [aiseLoop, hb, hc, hw]] at hres
          exact ih saved fs recs logAcc res hres hinv

/-- C6 counterexample: in the split-output variant the line written for
a row is the JSON of a fixed five-field projection, not of the row's
complete field set — a source row with fields `content` and `extra`
yields a record whose field set is
`id, path, repo_name, language, content`, dropping `extra`. -/
theorem C6_counterexample :
    ((fetch_for_language "python" 1 wWriteAll [wRowAise]).toOption.map
        (fun res => res.records.headI.map Prod.fst))
      = some ["id", "path", "repo_name", "language", "content"] ∧
      wRowAise.map Prod.fst = ["content", "extra"] ∧
      (["id", "path", "repo_name", "language", "content"] : List String)
          ≠ wRowAise.map Prod.fst ∧
      (["id", "path", "repo_name", "language", "content"] : List String)
          ≠ wRowAise.map Prod.fst ++ ["content"] := by
  refine ⟨by decide, by decide, by decide, by decide⟩

/-- C6 (amended): every line written to a JSON-lines log is one JSON
object followed by exactly one newline.  In the resolve variants the
object is the full record after normalization — the source row's field
set with `content` attached if not already present, nothing dropped.
In the split-output variant the object is the fixed five-field
projection `id, path, repo_name, language, content` of the row. -/
theorem C6_log_line_shape (resolve : Row → Option String) (N : Int) (rows : List Row) :
    ((ingestLoop resolve N rows 0 [] []).log
        = (ingestLoop resolve N rows 0 [] []).records.map
            (fun rec => ((dumps true rec).getD "") ++ "\n")) ∧
      (∀ rec ∈ (ingestLoop resolve N rows 0 [] []).records, ∃ row ∈ rows,
          rec.map Prod.fst
            = if hasKey row "content" = true then row.map Prod.fst
              else row.map Prod.fst ++ ["content"]) ∧
      (∀ (language : String) (count : Int) (writeOk : String → String → Bool)
          (rows2 : List Row) (res : AiseResult),
        fetch_for_language language count writeOk rows2 = .ok res →
          ∀ rec ∈ res.records,
            rec.map Prod.fst = ["id", "path", "repo_name", "language", "content"]) := by
  have hlog : (ingestLoop resolve N rows 0 [] []).log
      = ((rows.filterMap (processRow resolve)).take (N - 0).toNat).map Prod.snd := by
    rw [ingestLoop_eq]
    simp
  have hrecs : (ingestLoop resolve N rows 0 [] []).records
      = ((rows.filterMap (processRow resolve)).take (N - 0).toNat).map Prod.fst := by
    rw [ingestLoop_eq]
    simp
  refine ⟨?_, ?_, ?_⟩
  · rw [hlog, hrecs, List.map_map]
    apply List.map_congr_left
    intro p hp
    have hp2 := List.mem_of_mem_take hp
    rcases List.mem_filterMap.mp hp2 with ⟨row, _, hproc⟩
    obtain ⟨c, s, _, _, hd, hsnd⟩ := processRow_shape hproc
    rw [hsnd]
    show s ++ "\n" = ((dumps true p.1).getD "") ++ "\n"
    rw [hd]
    rfl
  · intro rec hrec
    rw [hrecs] at hrec
    rcases List.mem_map.mp hrec with ⟨p, hp, hfst⟩
    have hp2 := List.mem_of_mem_take hp
    rcases List.mem_filterMap.mp hp2 with ⟨row, hrow, hproc⟩
    obtain ⟨c, s, _, hrec_eq, _, _⟩ := processRow_shape hproc
    refine ⟨row, hrow, ?_⟩
    rw [← hfst, hrec_eq, keys_normalizeTimestamps]
    by_cases hk : hasKey row "content" = true
    · rw [if_pos hk, keys_setKey_replace _ hk]
    · rw [if_neg hk, keys_setKey_append _ (by simpa using hk)]
  · intro language count writeOk rows2 res hres
    unfold fetch_for_language at hres
    by_cases hl : (LANG_TO_FOLDER.lookup language).isSome = true
    · rw [if_pos hl] at hres
      exact aiseLoop_keys writeOk language _ count rows2 0 [] [] [] res hres
        (fun rec hmem => absurd hmem (List.not_mem_nil rec))
    · rw [if_neg (by simpa using hl)] at hres
      exact absurd hres (by simp)

/-! ## Round trip: string escaping -/

theorem char_toNat_lt (c : Char) : c.toNat < 1114112 := by
  have h := c.valid
  have he : c.toNat = c.val.toNat := rfl
  rcases h with h | h <;> omega

theorem char_not_surrogate (c : Char) : ¬(55296 ≤ c.toNat ∧ c.toNat ≤ 57343) := by
  have h := c.valid
  have he : c.toNat = c.val.toNat := rfl
  rcases h with h | h <;> omega

theorem hexVal_hexDigitChar {k : Nat} (h : k < 16) : hexVal (hexDigitChar k) = some k := by
  interval_cases k <;> rfl

theorem hex4Val_hex4 {n : Nat} (h : n < 65536) :
    hex4Val (hexDigitChar (n / 4096 % 16)) (hexDigitChar (n / 256 % 16))
      (hexDigitChar (n / 16 % 16)) (hexDigitChar (n % 16)) = some n := by
  have ha := hexVal_hexDigitChar (k := n / 4096 % 16) (Nat.mod_lt _ (by omega))
  have hb := hexVal_hexDigitChar (k := n / 256 % 16) (Nat.mod_lt _ (by omega))
  have hc := hexVal_hexDigitChar (k := n / 16 % 16) (Nat.mod_lt _ (by omega))
  have hd := hexVal_hexDigitChar (k := n % 16) (Nat.mod_lt _ (by omega))
  simp only [hex4Val, ha, hb, hc, hd]
  congr 1
  omega

theorem ue_esc_quot (tail : List Char) : unescapeStep ('\\' :: '"' :: tail) = some ('"', tail) := rfl

theorem ue_esc_bsl (tail : List Char) : unescapeStep ('\\' :: '\\' :: tail) = some ('\\', tail) := rfl

theorem ue_esc_b (tail : List Char) : unescapeStep ('\\' :: 'b' :: tail) = some ('\x08', tail) := rfl

theorem ue_esc_f (tail : List Char) : unescapeStep ('\\' :: 'f' :: tail) = some ('\x0c', tail) := rfl

theorem ue_esc_n (tail : List Char) : unescapeStep ('\\' :: 'n' :: tail) = some ('\n', tail) := rfl

theorem ue_esc_r (tail : List Char) : unescapeStep ('\\' :: 'r' :: tail) = some ('\r', tail) := rfl

theorem ue_esc_t (tail : List Char) : unescapeStep ('\\' :: 't' :: tail) = some ('\t', tail) := rfl

theorem ue_plain {c : Char} (h1 : ¬c = '"') (h2 : ¬c = '\\') (h3 : ¬c.toNat < 32)
    (tail : List Char) : unescapeStep (c :: tail) = some (c, tail) := by
  simp [unescapeStep, h1, h2, h3]

theorem ue_u4 {a b c2 d : Char} {n : Nat} (hh : hex4Val a b c2 d = some n)
    (h1 : ¬(55296 ≤ n ∧ n ≤ 56319)) (h2 : ¬(56320 ≤ n ∧ n ≤ 57343)) (tail : List Char) :
    unescapeStep ('\\' :: 'u' :: a :: b :: c2 :: d :: tail) = some (Char.ofNat n, tail) := by
  simp [unescapeStep, hh, h1, h2]

theorem ue_u8 {a b c2 d a2 b2 c3 d2 : Char} {n m : Nat}
    (hh : hex4Val a b c2 d = some n) (hn : 55296 ≤ n ∧ n ≤ 56319)
    (hh2 : hex4Val a2 b2 c3 d2 = some m) (hm : 56320 ≤ m ∧ m ≤ 57343) (tail : List Char) :
    unescapeStep ('\\' :: 'u' :: a :: b :: c2 :: d :: '\\' :: 'u' :: a2 :: b2 :: c3 :: d2 :: tail)
      = some (Char.ofNat (65536 + (n - 55296) * 1024 + (m - 56320)), tail) := by
  simp [unescapeStep, hh, hn, hh2, hm]

theorem go_quote (fuel : Nat) (tail : List Char) :
    scanBodyGo (fuel + 1) ('"' :: tail) = some ([], tail) := by
  rw [scanBodyGo]
  simp

theorem go_step {c : Char} (h : ¬c = '"') (fuel : Nat) {rest : List Char}
    {p : Char × List Char} (hu : unescapeStep (c :: rest) = some p) :
    scanBodyGo (fuel + 1) (c :: rest)
      = (scanBodyGo fuel p.2).map (fun q => (p.1 :: q.1, q.2)) := by
  rw [scanBodyGo]
  simp [h, hu]

theorem go_escapeList (ea : Bool) :
    ∀ (cs : List Char) (fuel : Nat) (tail : List Char), cs.length < fuel →
      scanBodyGo fuel (escapeList ea cs ++ '"' :: tail) = some (cs, tail) := by
  intro cs
  induction cs with
  | nil =>
    intro fuel tail hf
    cases fuel with
    | zero => omega
    | succ f =>
      show scanBodyGo (f + 1) ('"' :: tail) = some ([], tail)
      exact go_quote f tail
  | cons c cs' ih =>
    intro fuel tail hf
    cases fuel with
    | zero => simp at hf
    | succ f =>
      have hf' : cs'.length < f := by
        simp only [List.length_cons] at hf
        omega
      have hT := ih f tail hf'
      show scanBodyGo (f + 1) ((escapeChar ea c ++ escapeList ea cs') ++ '"' :: tail)
          = some (c :: cs', tail)
      rw [List.append_assoc]
      by_cases h1 : c = '"'
      · subst h1
        rw [show escapeChar ea '"' = ['\\', '"'] from rfl, List.cons_append, List.cons_append,
          List.nil_append, go_step (by decide) f (ue_esc_quot _), hT]
        rfl
      · by_cases h2 : c = '\\'
        · subst h2
          rw [show escapeChar ea '\\' = ['\\', '\\'] from rfl, List.cons_append, List.cons_append,
            List.nil_append, go_step (by decide) f (ue_esc_bsl _), hT]
          rfl
        · by_cases h3 : c = '\x08'
          · subst h3
            rw [show escapeChar ea '\x08' = ['\\', 'b'] from rfl, List.cons_append,
              List.cons_append, List.nil_append, go_step (by decide) f (ue_esc_b _), hT]
            rfl
          · by_cases h4 : c = '\x0c'
            · subst h4
              rw [show escapeChar ea '\x0c' = ['\\', 'f'] from rfl, List.cons_append,
                List.cons_append, List.nil_append, go_step (by decide) f (ue_esc_f _), hT]
              rfl
            · by_cases h5 : c = '\n'
              · subst h5
                rw [show escapeChar ea '\n' = ['\\', 'n'] from rfl, List.cons_append,
                  List.cons_append, List.nil_append, go_step (by decide) f (ue_esc_n _), hT]
                rfl
              · by_cases h6 : c = '\r'
                · subst h6
                  rw [show escapeChar ea '\r' = ['\\', 'r'] from rfl, List.cons_append,
                    List.cons_append, List.nil_append, go_step (by decide) f (ue_esc_r _), hT]
                  rfl
                · by_cases h7 : c = '\t'
                  · subst h7
                    rw [show escapeChar ea '\t' = ['\\', 't'] from rfl, List.cons_append,
                      List.cons_append, List.nil_append, go_step (by decide) f (ue_esc_t _), hT]
                    rfl
                  · by_cases h8 : c.toNat < 32
                    · have he : escapeChar ea c = '\\' :: 'u' :: hex4 c.toNat := by
                        simp [escapeChar, h1, h2, h3, h4, h5, h6, h7, h8, uEscape]
                      have hu := ue_u4 (hex4Val_hex4 (n := c.toNat) (by omega))
                        (by omega) (by omega)
                        (escapeList ea cs' ++ '"' :: tail)
                      rw [he]
                      rw [show ('\\' :: 'u' :: hex4 c.toNat)
                            ++ (escapeList ea cs' ++ '"' :: tail)
                          = '\\' :: 'u' :: hexDigitChar (c.toNat / 4096 % 16)
                            :: hexDigitChar (c.toNat / 256 % 16)
                            :: hexDigitChar (c.toNat / 16 % 16)
                            :: hexDigitChar (c.toNat % 16)
                            :: (escapeList ea cs' ++ '"' :: tail) from rfl]
                      rw [go_step (by decide) f hu, hT, Char.ofNat_toNat]
                      rfl
                    · by_cases h9 : 126 < c.toNat
                      · cases ea with
                        | false =>
                          have he : escapeChar false c = [c] := by
                            simp [escapeChar, h1, h2, h3, h4, h5, h6, h7, h8]
                          rw [he, List.cons_append, List.nil_append,
                            go_step h1 f (ue_plain h1 h2 h8 _), hT]
                          rfl
                        | true =>
                          by_cases h10 : c.toNat ≤ 65535
                          · have he : escapeChar true c = '\\' :: 'u' :: hex4 c.toNat := by
                              simp [escapeChar, h1, h2, h3, h4, h5, h6, h7, h8, h9, h10, uEscape]
                            have hns := char_not_surrogate c
                            have hu := ue_u4 (hex4Val_hex4 (n := c.toNat) (by omega))
                              (by omega) (by omega)
                              (escapeList true cs' ++ '"' :: tail)
                            rw [he]
                            rw [show ('\\' :: 'u' :: hex4 c.toNat)
                                  ++ (escapeList true cs' ++ '"' :: tail)
                                = '\\' :: 'u' :: hexDigitChar (c.toNat / 4096 % 16)
                                  :: hexDigitChar (c.toNat / 256 % 16)
                                  :: hexDigitChar (c.toNat / 16 % 16)
                                  :: hexDigitChar (c.toNat % 16)
                                  :: (escapeList true cs' ++ '"' :: tail) from rfl]
                            rw [go_step (by decide) f hu, hT, Char.ofNat_toNat]
                            rfl
                          · have hlt := char_toNat_lt c
                            have he : escapeChar true c
                                = uEscape (55296 + (c.toNat - 65536) / 1024)
                                  ++ uEscape (56320 + (c.toNat - 65536) % 1024) := by
                              simp [escapeChar, h1, h2, h3, h4, h5, h6, h7, h8, h9, h10]
                            have hu := ue_u8
                              (hex4Val_hex4 (n := 55296 + (c.toNat - 65536) / 1024) (by omega))
                              (by omega)
                              (hex4Val_hex4 (n := 56320 + (c.toNat - 65536) % 1024) (by omega))
                              (by omega)
                              (escapeList true cs' ++ '"' :: tail)
                            rw [he]
                            rw [show (uEscape (55296 + (c.toNat - 65536) / 1024)
                                  ++ uEscape (56320 + (c.toNat - 65536) % 1024))
                                  ++ (escapeList true cs' ++ '"' :: tail)
                                = '\\' :: 'u'
                                  :: hexDigitChar ((55296 + (c.toNat - 65536) / 1024) / 4096 % 16)
                                  :: hexDigitChar ((55296 + (c.toNat - 65536) / 1024) / 256 % 16)
                                  :: hexDigitChar ((55296 + (c.toNat - 65536) / 1024) / 16 % 16)
                                  :: hexDigitChar ((55296 + (c.toNat - 65536) / 1024) % 16)
                                  :: '\\' :: 'u'
                                  :: hexDigitChar ((56320 + (c.toNat - 65536) % 1024) / 4096 % 16)
                                  :: hexDigitChar ((56320 + (c.toNat - 65536) % 1024) / 256 % 16)
                                  :: hexDigitChar ((56320 + (c.toNat - 65536) % 1024) / 16 % 16)
                                  :: hexDigitChar ((56320 + (c.toNat - 65536) % 1024) % 16)
                                  :: (escapeList true cs' ++ '"' :: tail) from rfl]
                            rw [go_step (by decide) f hu, hT]
                            have hc : (65536 + (55296 + (c.toNat - 65536) / 1024 - 55296) * 1024
                                + (56320 + (c.toNat - 65536) % 1024 - 56320)) = c.toNat := by
                              omega
                            rw [hc, Char.ofNat_toNat]
                            rfl
                      · have he : escapeChar ea c = [c] := by
                          simp [escapeChar, h1, h2, h3, h4, h5, h6, h7, h8, h9]
                        rw [he, List.cons_append, List.nil_append,
                          go_step h1 f (ue_plain h1 h2 h8 _), hT]
                        rfl

set_option maxHeartbeats 1000000 in
theorem escapeChar_length_pos (ea : Bool) (c : Char) : 1 ≤ (escapeChar ea c).length := by
  unfold escapeChar
  split_ifs <;> simp [uEscape, hex4]

theorem escapeList_length_ge (ea : Bool) :
    ∀ cs : List Char, cs.length ≤ (escapeList ea cs).length := by
  intro cs
  induction cs with
  | nil => simp [escapeList]
  | cons c cs' ih =>
    have := escapeChar_length_pos ea c
    simp only [escapeList, List.length_append, List.length_cons]
    omega

theorem scanStringBody_escapeList (ea : Bool) (cs tail : List Char) :
    scanStringBody (escapeList ea cs ++ '"' :: tail) = some (cs, tail) := by
  unfold scanStringBody
  apply go_escapeList
  have h := escapeList_length_ge ea cs
  simp only [List.length_append, List.length_cons]
  omega

/-! ## Round trip: numbers -/

theorem natDigits_isDigit : ∀ n : Nat, ∀ c ∈ natDigits n, c.isDigit = true := by
  intro n
  induction n using Nat.strong_induction_on with
  | _ n ih =>
    intro c hc
    rw [natDigits] at hc
    split at hc
    · rcases List.mem_singleton.mp hc with rfl
      rename_i h
      interval_cases n <;> decide
    · rcases List.mem_append.mp hc with h1 | h2
      · rename_i h
        exact ih (n / 10) (Nat.div_lt_self (by omega) (by omega)) c h1
      · rcases List.mem_singleton.mp h2 with rfl
        have h10 : n % 10 < 10 := Nat.mod_lt _ (by omega)
        set k := n % 10 with hk
        interval_cases k <;> decide

theorem takeDigits_cons (c : Char) (rest : List Char) :
    takeDigits (c :: rest)
      = if c.isDigit then ((c :: (takeDigits rest).1), (takeDigits rest).2)
        else ([], c :: rest) := rfl

theorem digitsToNat_nil (acc : Nat) : digitsToNat acc [] = acc := rfl

theorem digitsToNat_cons (acc : Nat) (c : Char) (rest : List Char) :
    digitsToNat acc (c :: rest) = digitsToNat (acc * 10 + (c.toNat - 48)) rest := rfl

theorem digitsToNat_append (acc : Nat) (xs ys : List Char) :
    digitsToNat acc (xs ++ ys) = digitsToNat (digitsToNat acc xs) ys := by
  induction xs generalizing acc with
  | nil => rfl
  | cons c xs' ih =>
    rw [List.cons_append, digitsToNat_cons, digitsToNat_cons]
    exact ih _

theorem toNat_ofNat_digit {n : Nat} (h : n < 10) : (Char.ofNat (48 + n)).toNat = 48 + n := by
  interval_cases n <;> decide

theorem digitsToNat_natDigits : ∀ n : Nat, ∀ acc : Nat,
    digitsToNat acc (natDigits n) = acc * 10 ^ (natDigits n).length + n := by
  intro n
  induction n using Nat.strong_induction_on with
  | _ n ih =>
    intro acc
    rw [natDigits]
    split
    · rename_i h
      simp only [digitsToNat_cons, digitsToNat_nil, List.length_singleton, pow_one]
      rw [toNat_ofNat_digit h]
      omega
    · rename_i h
      rw [digitsToNat_append, ih (n / 10) (Nat.div_lt_self (by omega) (by omega)) acc]
      have h10 : n % 10 < 10 := Nat.mod_lt _ (by omega)
      simp only [digitsToNat_cons, digitsToNat_nil, List.length_append, List.length_singleton]
      rw [toNat_ofNat_digit h10]
      rw [pow_succ]
      set A := acc * 10 ^ (natDigits (n / 10)).length with hA
      have hA2 : acc * (10 ^ (natDigits (n / 10)).length * 10) = A * 10 := by
        rw [hA]; ring
      rw [hA2]
      omega

theorem takeDigits_spec {ds tail : List Char} (hds : ∀ c ∈ ds, c.isDigit = true)
    (htail : ∀ c, tail.head? = some c → c.isDigit = false) :
    takeDigits (ds ++ tail) = (ds, tail) := by
  induction ds with
  | nil =>
    cases tail with
    | nil => rfl
    | cons c rest =>
      have hc := htail c rfl
      simp only [List.nil_append, takeDigits_cons, hc]
      simp
  | cons c ds' ih =>
    have hc := hds c (List.mem_cons_self _ _)
    have ih2 := ih (fun c2 hc2 => hds c2 (List.mem_cons_of_mem _ hc2))
    rw [List.cons_append, takeDigits_cons, if_pos hc, ih2]

theorem isDigit_facts {c : Char} (h : c.isDigit = true) :
    ¬c = '"' ∧ ¬c = 't' ∧ ¬c = 'f' ∧ ¬c = 'n' ∧ ¬c = '-' ∧ ¬c = '\\' ∧ ¬c.toNat < 32 := by
  simp only [Char.isDigit] at h
  have h1 : 48 ≤ c.toNat ∧ c.toNat ≤ 57 := by
    constructor
    · exact (of_decide_eq_true (Bool.and_elim_left h) : '0' ≤ c)
    · exact (of_decide_eq_true (Bool.and_elim_right h) : c ≤ '9')
  refine ⟨?_, ?_, ?_, ?_, ?_, ?_, by omega⟩ <;>
    (intro he; subst he; exact absurd h1 (by decide))

/-- A tail that cannot continue a number: empty, or headed by a
character that is not a digit and not `.`, `e`, `E`. -/
def numSafe (tail : List Char) : Prop :=
  ∀ c, tail.head? = some c → c.isDigit = false ∧ ¬c = '.' ∧ ¬c = 'e' ∧ ¬c = 'E'

theorem scanNat_unfold (cs : List Char) :
    scanNat cs
      = match (takeDigits cs).1 with
        | [] => none
        | _ =>
          match (takeDigits cs).2 with
          | [] => some (digitsToNat 0 (takeDigits cs).1, [])
          | c :: _ =>
            if c = '.' ∨ c = 'e' ∨ c = 'E' then none
            else some (digitsToNat 0 (takeDigits cs).1, (takeDigits cs).2) := rfl

theorem scanNat_natDigits {n : Nat} {tail : List Char} (htail : numSafe tail) :
    scanNat (natDigits n ++ tail) = some (n, tail) := by
  have htd := takeDigits_spec (natDigits_isDigit n) (fun c hc => (htail c hc).1)
  have hdn := digitsToNat_natDigits n 0
  simp only [zero_mul, zero_add] at hdn
  rw [scanNat_unfold, htd]
  rw [show ((natDigits n, tail) : List Char × List Char).1 = natDigits n from rfl,
    show ((natDigits n, tail) : List Char × List Char).2 = tail from rfl]
  split
  · rename_i heq
    have := natDigits_length_pos n
    rw [heq] at this
    simp at this
  · cases tail with
    | nil => simp only [hdn]
    | cons t ts =>
      obtain ⟨ht1, ht2, ht3, ht4⟩ := htail t rfl
      have hcond : ¬(t = '.' ∨ t = 'e' ∨ t = 'E') := by
        rintro (hh | hh | hh)
        · exact ht2 hh
        · exact ht3 hh
        · exact ht4 hh
      simp only [hdn]
      rw [if_neg hcond]

/-! ## Round trip: scalar values -/

theorem scanScalar_digit {c : Char} (hc : c.isDigit = true) (rest : List Char) :
    scanScalar (c :: rest)
      = (scanNat (c :: rest)).map (fun q => (Value.int (q.1 : Int), q.2)) := by
  obtain ⟨f1, f2, f3, f4, f5, _, _⟩ := isDigit_facts hc
  simp only [scanScalar]
  rw [if_neg f1, if_neg f2, if_neg f3, if_neg f4, if_neg f5, if_pos hc]

theorem scanScalar_dumpValue {ea : Bool} {v : Value} {vc : List Char}
    (hv : dumpValue ea v = some vc) {tail : List Char} (htail : numSafe tail) :
    scanScalar (vc ++ tail) = some (v, tail) := by
  cases v with
  | str s =>
    have hvc : vc = '"' :: (escapeList ea s.data ++ ['"']) := by
      simpa [dumpValue, encodeString] using hv.symm
    subst hvc
    rw [List.cons_append, List.append_assoc]
    rw [show ((['"'] : List Char) ++ tail) = '"' :: tail from rfl]
    rw [show scanScalar ('"' :: (escapeList ea s.data ++ '"' :: tail))
        = (scanStringBody (escapeList ea s.data ++ '"' :: tail)).map
            (fun q => (Value.str (String.mk q.1), q.2)) from rfl]
    rw [scanStringBody_escapeList]
    rfl
  | int i =>
    have hvc : vc = if i < 0 then '-' :: natDigits (-i).toNat else natDigits i.toNat := by
      simpa [dumpValue] using hv.symm
    by_cases hi : i < 0
    · rw [if_pos hi] at hvc
      subst hvc
      rw [List.cons_append]
      rw [show scanScalar ('-' :: (natDigits (-i).toNat ++ tail))
          = (scanNat (natDigits (-i).toNat ++ tail)).map
              (fun q => (Value.int (-(q.1 : Int)), q.2)) from rfl]
      rw [scanNat_natDigits htail]
      have hcast : (((-i).toNat : Int)) = -i := Int.toNat_of_nonneg (by omega)
      simp only [Option.map_some', hcast, neg_neg]
    · rw [if_neg hi] at hvc
      subst hvc
      obtain ⟨c, cs, hd⟩ : ∃ c cs, natDigits i.toNat = c :: cs := by
        cases hnd : natDigits i.toNat with
        | nil =>
          have := natDigits_length_pos i.toNat
          rw [hnd] at this
          simp at this
        | cons c cs => exact ⟨c, cs, rfl⟩
      have hc : c.isDigit = true := natDigits_isDigit i.toNat c (by rw [hd]; exact List.mem_cons_self _ _)
      rw [hd, List.cons_append, scanScalar_digit hc, ← List.cons_append, ← hd]
      rw [scanNat_natDigits htail]
      have hcast : ((i.toNat : Int)) = i := Int.toNat_of_nonneg (by omega)
      simp only [Option.map_some', hcast]
  | bool b =>
    cases b with
    | true =>
      have hvc : vc = ['t', 'r', 'u', 'e'] := by simpa [dumpValue] using hv.symm
      subst hvc
      rw [show ((['t', 'r', 'u', 'e'] : List Char) ++ tail) = 't' :: 'r' :: 'u' :: 'e' :: tail from rfl]
      rw [show scanScalar ('t' :: 'r' :: 'u' :: 'e' :: tail) = some (Value.bool true, tail) from rfl]
    | false =>
      have hvc : vc = ['f', 'a', 'l', 's', 'e'] := by simpa [dumpValue] using hv.symm
      subst hvc
      rw [show ((['f', 'a', 'l', 's', 'e'] : List Char) ++ tail)
          = 'f' :: 'a' :: 'l' :: 's' :: 'e' :: tail from rfl]
      rw [show scanScalar ('f' :: 'a' :: 'l' :: 's' :: 'e' :: tail)
          = some (Value.bool false, tail) from rfl]
  | null =>
    have hvc : vc = ['n', 'u', 'l', 'l'] := by simpa [dumpValue] using hv.symm
    subst hvc
    rw [show ((['n', 'u', 'l', 'l'] : List Char) ++ tail) = 'n' :: 'u' :: 'l' :: 'l' :: tail from rfl]
    rw [show scanScalar ('n' :: 'u' :: 'l' :: 'l' :: tail) = some (Value.null, tail) from rfl]
  | datetime d => simp [dumpValue] at hv

/-! ## Round trip: object members -/

theorem skipWs_cons_not_ws {c : Char} (h : ¬(c = ' ' ∨ c = '\t' ∨ c = '\n' ∨ c = '\r'))
    (rest : List Char) : skipWs (c :: rest) = c :: rest := by
  rw [show skipWs (c :: rest)
      = if c = ' ' ∨ c = '\t' ∨ c = '\n' ∨ c = '\r' then skipWs rest else c :: rest from rfl,
    if_neg h]

theorem skipWs_space (rest : List Char) : skipWs (' ' :: rest) = skipWs rest := by
  rw [show skipWs (' ' :: rest)
      = if (' ' : Char) = ' ' ∨ (' ' : Char) = '\t' ∨ (' ' : Char) = '\n' ∨ (' ' : Char) = '\r'
        then skipWs rest else ' ' :: rest from rfl,
    if_pos (by decide)]

theorem isDigit_not_ws {c : Char} (h : c.isDigit = true) :
    ¬(c = ' ' ∨ c = '\t' ∨ c = '\n' ∨ c = '\r') := by
  simp only [Char.isDigit] at h
  have h1 : 48 ≤ c.toNat := (of_decide_eq_true (Bool.and_elim_left h) : '0' ≤ c)
  rintro (he | he | he | he) <;> (subst he; exact absurd h1 (by decide))

theorem skipWs_dumpValue {ea : Bool} {v : Value} {vc : List Char}
    (hv : dumpValue ea v = some vc) (rest : List Char) :
    skipWs (vc ++ rest) = vc ++ rest := by
  cases v with
  | str s =>
    have hvc : vc = '"' :: (escapeList ea s.data ++ ['"']) := by
      simpa [dumpValue, encodeString] using hv.symm
    subst hvc
    rw [List.cons_append, skipWs_cons_not_ws (by decide)]
  | int i =>
    have hvc : vc = if i < 0 then '-' :: natDigits (-i).toNat else natDigits i.toNat := by
      simpa [dumpValue] using hv.symm
    by_cases hi : i < 0
    · rw [if_pos hi] at hvc
      subst hvc
      rw [List.cons_append, skipWs_cons_not_ws (by decide)]
    · rw [if_neg hi] at hvc
      subst hvc
      obtain ⟨c, cs, hd⟩ : ∃ c cs, natDigits i.toNat = c :: cs := by
        cases hnd : natDigits i.toNat with
        | nil =>
          have := natDigits_length_pos i.toNat
          rw [hnd] at this
          simp at this
        | cons c cs => exact ⟨c, cs, rfl⟩
      have hc : c.isDigit = true :=
        natDigits_isDigit i.toNat c (by rw [hd]; exact List.mem_cons_self _ _)
      rw [hd, List.cons_append, skipWs_cons_not_ws (isDigit_not_ws hc)]
  | bool b =>
    cases b with
    | true =>
      have hvc : vc = ['t', 'r', 'u', 'e'] := by simpa [dumpValue] using hv.symm
      subst hvc
      rw [List.cons_append, skipWs_cons_not_ws (by decide)]
    | false =>
      have hvc : vc = ['f', 'a', 'l', 's', 'e'] := by simpa [dumpValue] using hv.symm
      subst hvc
      rw [List.cons_append, skipWs_cons_not_ws (by decide)]
  | null =>
    have hvc : vc = ['n', 'u', 'l', 'l'] := by simpa [dumpValue] using hv.symm
    subst hvc
    rw [List.cons_append, skipWs_cons_not_ws (by decide)]
  | datetime d => simp [dumpValue] at hv

theorem numSafe_comma (xs : List Char) : numSafe (',' :: xs) := by
  intro c hc
  simp only [List.head?] at hc
  rcases Option.some.injEq _ _ ▸ hc with rfl
  exact ⟨by decide, by decide, by decide, by decide⟩

theorem numSafe_brace (xs : List Char) : numSafe ('\x7d' :: xs) := by
  intro c hc
  simp only [List.head?] at hc
  rcases Option.some.injEq _ _ ▸ hc with rfl
  exact ⟨by decide, by decide, by decide, by decide⟩

theorem dumpMembers_single (ea : Bool) (k : String) (v : Value) :
    dumpMembers ea [(k, v)]
      = (dumpValue ea v).map (fun vc => encodeString ea k ++ ':' :: ' ' :: vc) := rfl

theorem dumpMembers_cons2 (ea : Bool) (k : String) (v : Value) (p : String × Value)
    (rest : Row) :
    dumpMembers ea ((k, v) :: p :: rest)
      = match dumpValue ea v, dumpMembers ea (p :: rest) with
        | some vc, some mc =>
          some (encodeString ea k ++ ':' :: ' ' :: vc ++ ',' :: ' ' :: mc)
        | _, _ => none := rfl

theorem dumpMembers_head {ea : Bool} {p : String × Value} {rest : Row} {mc : List Char}
    (h : dumpMembers ea (p :: rest) = some mc) :
    ∃ t, mc = '"' :: t := by
  obtain ⟨k, v⟩ := p
  cases rest with
  | nil =>
    rw [dumpMembers_single] at h
    cases hv : dumpValue ea v with
    | none => rw [hv] at h; simp at h
    | some vc =>
      rw [hv] at h
      simp only [Option.map_some', Option.some.injEq] at h
      exact ⟨_, by rw [← h]; rfl⟩
  | cons p2 rest2 =>
    rw [dumpMembers_cons2] at h
    cases hv : dumpValue ea v with
    | none => rw [hv] at h; simp at h
    | some vc =>
      cases hm : dumpMembers ea (p2 :: rest2) with
      | none => rw [hv, hm] at h; simp at h
      | some mc2 =>
        rw [hv, hm] at h
        simp only [Option.some.injEq] at h
        exact ⟨_, by rw [← h]; rfl⟩

theorem scanMembers_cons_quote (f : Nat) (rest : List Char) :
    scanMembers (f + 1) ('"' :: rest)
      = match scanStringBody rest with
        | none => none
        | some (k, rest2) =>
          match skipWs rest2 with
          | ':' :: rest3 =>
            match scanScalar (skipWs rest3) with
            | none => none
            | some (v, rest4) =>
              match skipWs rest4 with
              | ',' :: rest5 =>
                (scanMembers f (skipWs rest5)).map (fun q => ((String.mk k, v) :: q.1, q.2))
              | '\x7d' :: rest5 => some ([(String.mk k, v)], rest5)
              | _ => none
          | _ => none := by
  rw [scanMembers]

theorem scanMembers_dumpMembers (ea : Bool) :
    ∀ (r : Row) (mc : List Char) (fuel : Nat) (tail : List Char),
      dumpMembers ea r = some mc → r ≠ [] → r.length < fuel →
      scanMembers fuel (mc ++ '\x7d' :: tail) = some (r, tail) := by
  intro r
  induction r with
  | nil => intro mc fuel tail _ hne _; exact absurd rfl hne
  | cons p rest ih =>
    obtain ⟨k, v⟩ := p
    intro mc fuel tail hd hne hf
    cases fuel with
    | zero => simp at hf
    | succ f =>
      cases rest with
      | nil =>
        rw [dumpMembers_single] at hd
        cases hv : dumpValue ea v with
        | none => rw [hv] at hd; simp at hd
        | some vc =>
          rw [hv] at hd
          simp only [Option.map_some', Option.some.injEq] at hd
          subst hd
          rw [show ((encodeString ea k ++ ':' :: ' ' :: vc) ++ '\x7d' :: tail)
              = '"' :: (escapeList ea k.data ++ '"' :: ':' :: ' ' :: (vc ++ '\x7d' :: tail)) from by
            simp [encodeString, List.append_assoc]]
          rw [scanMembers_cons_quote]
          simp only [scanStringBody_escapeList,
            skipWs_cons_not_ws (c := ':') (by decide), skipWs_space,
            skipWs_dumpValue hv, scanScalar_dumpValue hv (numSafe_brace tail),
            skipWs_cons_not_ws (c := '\x7d') (by decide)]
      | cons p2 rest2 =>
        rw [dumpMembers_cons2] at hd
        cases hv : dumpValue ea v with
        | none => rw [hv] at hd; simp at hd
        | some vc =>
          cases hm : dumpMembers ea (p2 :: rest2) with
          | none => rw [hv, hm] at hd; simp at hd
          | some mc2 =>
            rw [hv, hm] at hd
            simp only [Option.some.injEq] at hd
            subst hd
            obtain ⟨t2, ht2⟩ := dumpMembers_head hm
            have hrec := ih mc2 f tail hm (by simp)
              (by simp only [List.length_cons] at hf ⊢; omega)
            rw [show ((encodeString ea k ++ ':' :: ' ' :: vc ++ ',' :: ' ' :: mc2) ++ '\x7d' :: tail)
                = '"' :: (escapeList ea k.data ++ '"' :: ':' :: ' ' ::
                    (vc ++ ',' :: ' ' :: (mc2 ++ '\x7d' :: tail))) from by
              simp [encodeString, List.append_assoc]]
            rw [scanMembers_cons_quote]
            simp only [scanStringBody_escapeList,
              skipWs_cons_not_ws (c := ':') (by decide), skipWs_space,
              skipWs_dumpValue hv,
              scanScalar_dumpValue hv (numSafe_comma (' ' :: (mc2 ++ '\x7d' :: tail))),
              skipWs_cons_not_ws (c := ',') (by decide)]
            rw [show skipWs (mc2 ++ '\x7d' :: tail) = mc2 ++ '\x7d' :: tail from by
              rw [ht2, List.cons_append, skipWs_cons_not_ws (by decide)]]
            rw [hrec]
            rfl

/-! ## Round trip: whole objects -/

theorem encodeString_length (ea : Bool) (k : String) :
    (encodeString ea k).length = 1 + (escapeList ea k.data).length + 1 := by
  simp [encodeString]
  omega

theorem dumpMembers_length (ea : Bool) :
    ∀ {r : Row} {mc : List Char}, dumpMembers ea r = some mc → r.length ≤ mc.length := by
  intro r
  induction r with
  | nil =>
    intro mc h
    have : mc = [] := by simpa [dumpMembers] using h.symm
    simp [this]
  | cons p rest ih =>
    obtain ⟨k, v⟩ := p
    intro mc h
    cases rest with
    | nil =>
      rw [dumpMembers_single] at h
      cases hv : dumpValue ea v with
      | none => rw [hv] at h; simp at h
      | some vc =>
        rw [hv] at h
        simp only [Option.map_some', Option.some.injEq] at h
        subst h
        simp only [List.length_append, List.length_cons, List.length_singleton,
          List.length_nil, encodeString_length]
        omega
    | cons p2 rest2 =>
      rw [dumpMembers_cons2] at h
      cases hv : dumpValue ea v with
      | none => rw [hv] at h; simp at h
      | some vc =>
        cases hm : dumpMembers ea (p2 :: rest2) with
        | none => rw [hv, hm] at h; simp at h
        | some mc2 =>
          rw [hv, hm] at h
          simp only [Option.some.injEq] at h
          subst h
          have := ih hm
          simp only [List.length_append, List.length_cons, encodeString_length] at *
          omega

theorem hasKey_false_of_not_mem {r : Row} {k : String} (h : k ∉ r.map Prod.fst) :
    hasKey r k = false := by
  induction r with
  | nil => rfl
  | cons p rest ih =>
    obtain ⟨k', v⟩ := p
    simp only [List.map_cons, List.mem_cons, not_or] at h
    simp only [hasKey, Bool.or_eq_false_iff, decide_eq_false_iff_not]
    exact ⟨fun he => h.1 he.symm, ih h.2⟩

theorem buildRow_aux :
    ∀ (l : Row) (acc : Row), ((acc.map Prod.fst ++ l.map Prod.fst)).Nodup →
      l.foldl (fun acc p => setKey acc p.1 p.2) acc = acc ++ l := by
  intro l
  induction l with
  | nil => intro acc _; simp
  | cons p t ih =>
    obtain ⟨k, v⟩ := p
    intro acc hnd
    have hk : k ∉ acc.map Prod.fst := by
      rw [List.nodup_append] at hnd
      intro hmem
      exact hnd.2.2 hmem (by simp)
    rw [List.foldl_cons]
    rw [show setKey acc (k, v).1 (k, v).2 = acc ++ [(k, v)] from
      setKey_of_not_hasKey _ (hasKey_false_of_not_mem hk)]
    rw [ih (acc ++ [(k, v)]) (by
      simp only [List.map_append, List.map_cons, List.map_nil] at hnd ⊢
      rw [List.append_assoc]
      simpa using hnd)]
    rw [List.append_assoc]
    rfl

theorem buildRow_eq {r : Row} (hnd : (r.map Prod.fst).Nodup) : buildRow r = r := by
  have h := buildRow_aux r [] (by simpa using hnd)
  simpa [buildRow] using h

theorem dumps_shape {ea : Bool} {r : Row} {s : String} (h : dumps ea r = some s) :
    ∃ mc, dumpMembers ea r = some mc ∧ s = String.mk ('\x7b' :: (mc ++ ['\x7d'])) := by
  unfold dumps at h
  cases hm : dumpMembers ea r with
  | none => rw [hm] at h; simp at h
  | some mc =>
    rw [hm] at h
    simp only [Option.map_some', Option.some.injEq] at h
    exact ⟨mc, rfl, h.symm⟩

theorem scanObj_unfold (fuel : Nat) (cs : List Char) :
    scanObj fuel cs
      = match skipWs cs with
        | '\x7b' :: rest =>
          match skipWs rest with
          | '\x7d' :: rest2 => some ([], rest2)
          | rest2 => scanMembers fuel rest2
        | _ => none := rfl

theorem loads_dumps {ea : Bool} {r : Row} {s : String} (hd : dumps ea r = some s)
    (hnd : (r.map Prod.fst).Nodup) : loads (s ++ "\n") = some r := by
  obtain ⟨mc, hm, hs⟩ := dumps_shape hd
  subst hs
  have hdata : (String.mk ('\x7b' :: (mc ++ ['\x7d'])) ++ "\n").data
      = '\x7b' :: (mc ++ ['\x7d', '\n']) := by
    show ('\x7b' :: (mc ++ ['\x7d'])) ++ ['\n'] = '\x7b' :: (mc ++ ['\x7d', '\n'])
    simp
  unfold loads
  rw [hdata, scanObj_unfold]
  have h1 : skipWs ('\x7b' :: (mc ++ ['\x7d', '\n'])) = '\x7b' :: (mc ++ ['\x7d', '\n']) :=
    skipWs_cons_not_ws (by decide) _
  cases r with
  | nil =>
    have hmc : mc = [] := by simpa [dumpMembers] using hm.symm
    subst hmc
    have h2 : skipWs (([] : List Char) ++ ['\x7d', '\n']) = '\x7d' :: ['\n'] := rfl
    have h4 : skipWs ['\n'] = [] := rfl
    simp only [h1, h2, h4]
    rfl
  | cons p rest' =>
    obtain ⟨t2, ht2⟩ := dumpMembers_head hm
    have hlen : (p :: rest').length < ('\x7b' :: (mc ++ ['\x7d', '\n'])).length + 1 := by
      have hh := dumpMembers_length ea hm
      have h5 : (['\x7d', '\n'] : List Char).length = 2 := rfl
      simp only [List.length_cons, List.length_append, h5] at hh ⊢
      omega
    have h2 : skipWs (mc ++ ['\x7d', '\n']) = '"' :: (t2 ++ ['\x7d', '\n']) := by
      rw [ht2, List.cons_append, skipWs_cons_not_ws (by decide)]
    have h3 : scanMembers (('\x7b' :: (mc ++ ['\x7d', '\n'])).length + 1)
        ('"' :: (t2 ++ ['\x7d', '\n'])) = some (p :: rest', ['\n']) := by
      have hx := scanMembers_dumpMembers ea (p :: rest') mc
        (('\x7b' :: (mc ++ ['\x7d', '\n'])).length + 1) ['\n'] hm (by simp) hlen
      rw [show (mc ++ '\x7d' :: ['\n']) = '"' :: (t2 ++ ['\x7d', '\n']) from by
        rw [ht2]; simp] at hx
      rw [ht2]
      simp only [List.cons_append]
      exact hx
    have h4 : skipWs ['\n'] = [] := rfl
    simp only [h1, h2]
    change (match scanMembers (('\x7b' :: (mc ++ ['\x7d', '\n'])).length + 1)
        ('"' :: (t2 ++ ['\x7d', '\n'])) with
      | some (ms, rest) =>
        match skipWs rest with
        | [] => some (buildRow ms)
        | _ => none
      | none => none) = some (p :: rest')
    rw [h3]
    simp only [h4, buildRow_eq hnd]

/-! ## The split-extraction step on a loop-produced log -/

theorem forall₂_map_same {α β γ : Type} (f : α → β) (g : α → γ) (P : β → γ → Prop) :
    ∀ l : List α, (∀ x ∈ l, P (f x) (g x)) → List.Forall₂ P (l.map f) (l.map g) := by
  intro l
  induction l with
  | nil => intro _; exact List.Forall₂.nil
  | cons x xs ih =>
    intro h
    exact List.Forall₂.cons (h x (List.mem_cons_self _ _))
      (ih (fun y hy => h y (List.mem_cons_of_mem _ hy)))

theorem ingest_log_loads {resolve : Row → Option String} {N : Int} {rows : List Row}
    (h : ∀ r ∈ rows, RowOk r) :
    List.Forall₂ (fun l rec => loads l = some rec)
      (ingestLoop resolve N rows 0 [] []).log
      (ingestLoop resolve N rows 0 [] []).records := by
  have hlog : (ingestLoop resolve N rows 0 [] []).log
      = ((rows.filterMap (processRow resolve)).take (N - 0).toNat).map Prod.snd := by
    rw [ingestLoop_eq]; simp
  have hrecs : (ingestLoop resolve N rows 0 [] []).records
      = ((rows.filterMap (processRow resolve)).take (N - 0).toNat).map Prod.fst := by
    rw [ingestLoop_eq]; simp
  rw [hlog, hrecs]
  apply forall₂_map_same
  intro pr hpr
  have hpr2 := List.mem_of_mem_take hpr
  rcases List.mem_filterMap.mp hpr2 with ⟨row, hrow, hproc⟩
  have hok := h row hrow
  obtain ⟨c, s, _, hrec_eq, hds, hsnd⟩ := processRow_shape hproc
  have hnd : (pr.1.map Prod.fst).Nodup := by
    rw [hrec_eq, keys_normalizeTimestamps]
    exact keys_setKey_nodup hok.1 _ _
  rw [hsnd]
  exact loads_dumps hds hnd

theorem foldl_extractLine (file_ext : String) :
    ∀ (ls : List String) (recs : List Row),
      List.Forall₂ (fun l rec => loads l = some rec) ls recs →
      ∀ st : ExtractResult,
        ls.foldl (extractLine file_ext) st
          = ⟨st.files ++ recs.filterMap (extractEvent file_ext),
             st.count + (recs.filterMap (extractEvent file_ext)).length⟩ := by
  intro ls recs hfa
  induction hfa with
  | nil => intro st; cases st; simp
  | @cons l rec ls' recs' hpr hrest ih =>
    intro st
    rw [List.foldl_cons]
    have hstep : extractLine file_ext st l
        = (match extractEvent file_ext rec with
           | some ev => ⟨st.files ++ [ev], st.count + 1⟩
           | none => st) := by
      cases hcv : pyGet rec "content" with
      | none =>
        cases hbv : pyGet rec "blob_id" <;>
          simp [extractLine, extractEvent, hpr, hcv]
      | some cv =>
        cases hbv : pyGet rec "blob_id" with
        | none => simp [extractLine, extractEvent, hpr, hcv, hbv]
        | some bv =>
          by_cases ht : (cv.truthy && bv.truthy) = true
          · cases cv <;> simp [extractLine, extractEvent, hpr, hcv, hbv, ht]
          · simp [extractLine, extractEvent, hpr, hcv, hbv, ht]
    rw [hstep]
    cases hevt : extractEvent file_ext rec with
    | none =>
      rw [show (match (none : Option (String × String)) with
          | some ev => (⟨st.files ++ [ev], st.count + 1⟩ : ExtractResult)
          | none => st) = st from rfl]
      rw [ih st]
      simp [List.filterMap_cons, hevt]
    | some ev =>
      rw [show (match (some ev : Option (String × String)) with
          | some ev => (⟨st.files ++ [ev], st.count + 1⟩ : ExtractResult)
          | none => st) = (⟨st.files ++ [ev], st.count + 1⟩ : ExtractResult) from rfl]
      rw [ih ⟨st.files ++ [ev], st.count + 1⟩]
      simp only [List.filterMap_cons, hevt, List.length_cons, ExtractResult.mk.injEq,
        List.append_assoc, List.cons_append, List.nil_append]
      exact ⟨trivial, by omega⟩

/-- C5: running the split-extraction step over a log produced by the
ingestion loop writes exactly one output file per log line whose
`content` and `blob_id` fields are truthy (non-empty): the file-write
events are exactly `extractEvent` of the written records in order, the
final count is their number, and for a record with non-empty string
content and truthy identifier the event is the file
`str(blob_id) + extension` whose content is byte-identical to the
record's `content` field. -/
theorem C5_split_extraction_round_trip (resolve : Row → Option String) (N : Int)
    (rows : List Row) (h : ∀ r ∈ rows, RowOk r) (language_key file_ext : String)
    (hl : EXTENSION_MAP.lookup language_key = some file_ext) :
    extract_code_to_files (ingestLoop resolve N rows 0 [] []).log language_key
        = .ok ⟨(ingestLoop resolve N rows 0 [] []).records.filterMap (extractEvent file_ext),
               ((ingestLoop resolve N rows 0 [] []).records.filterMap
                 (extractEvent file_ext)).length⟩ ∧
      ∀ rec ∈ (ingestLoop resolve N rows 0 [] []).records, ∀ c : String,
        pyGet rec "content" = some (.str c) → c ≠ "" →
          ∀ bv, pyGet rec "blob_id" = some bv → bv.truthy = true →
            extractEvent file_ext rec = some (bv.pyStr ++ file_ext, c) := by
  constructor
  · unfold extract_code_to_files
    simp only [hl]
    rw [foldl_extractLine file_ext _ _ (ingest_log_loads h) ⟨[], 0⟩]
    simp
  · intro rec _ c hc hcne bv hbv hbt
    have hie : c.isEmpty = false := by
      cases hie2 : c.isEmpty with
      | false => rfl
      | true => exact absurd ((String.isEmpty_iff c).mp hie2) hcne
    have hct : (Value.str c).truthy = true := by
      simp [Value.truthy, hie]
    simp [extractEvent, hc, hbv, hct, hbt]

/-- Witness for C5 at a concrete input: three rows, the middle one
failing resolution; the two written records yield the files
`a.py` and `c.py` with the resolved content. -/
theorem C5_split_extraction_round_trip_witness :
    ((∀ r ∈ wRows, RowOk r) ∧ EXTENSION_MAP.lookup "python" = some ".py") ∧
      extract_code_to_files (ingestLoop wResolve 5 wRows 0 [] []).log "python"
        = .ok ⟨[("a.py", "X"), ("c.py", "X")], 2⟩ := by
  have h1 : ∀ r ∈ wRows, RowOk r := by decide
  have h2 : EXTENSION_MAP.lookup "python" = some ".py" := by decide
  have hc := C5_split_extraction_round_trip wResolve 5 wRows h1 "python" ".py" h2
  exact ⟨⟨h1, h2⟩, hc.1.trans (by rfl)⟩
